import Mathlib

/-!
# Verification of the badge-generator document substitution logic

Shallow embedding of the repository's Word-document mail-merge scripts:

* `main2.py` — run-preserving text replacement (`replace_in_paragraph`,
  `replace_text_in_document`), image insertion (`replace_images_in_document`,
  `replace_text_with_image_in_paragraph`) and batch grouping (`table_to_dicts`).
* `tests/main.py` — multiline cell replacement (`replace_text_placeholders`)
  and bulk dummy-image replacement (`replace_all_images_with_dummies`,
  also present in `tests/test.py` with an identical loop body).

Strings are modelled as `List Char`; Python `str.replace` / `in` are modelled
by `pyReplace` / `listContains` below, including Python's empty-pattern
semantics.  A formatting descriptor (`Fmt`) is an optional-field record, with
`none` standing for Python `None` (attribute not set).
-/

set_option maxHeartbeats 1000000

namespace BadgeGen

/-- Python membership test `pat in s` on character lists: `pat` occurs as a
contiguous substring of `s` (the empty pattern occurs in every string). -/
def listContains (pat : List Char) : List Char → Bool
  | [] => pat.isEmpty
  | c :: rest => pat.isPrefixOf (c :: rest) || listContains pat rest

/-- Scanner for Python `s.replace(pat, rep)` with a non-empty pattern: walk the
string left to right, replacing non-overlapping occurrences.  The `skip`
counter consumes the remaining characters of a matched pattern. -/
def pyRepGo (pat rep : List Char) : List Char → Nat → List Char
  | [], _ => []
  | _ :: rest, skip + 1 => pyRepGo pat rep rest skip
  | c :: rest, 0 =>
    if pat.isPrefixOf (c :: rest) then rep ++ pyRepGo pat rep rest (pat.length - 1)
    else c :: pyRepGo pat rep rest 0

/-- Python `s.replace(pat, rep)`.  For the empty pattern, Python inserts `rep`
before every character and at the end (`"ab".replace("", "X") = "XaXbX"`). -/
def pyReplace (s pat rep : List Char) : List Char :=
  if pat.isEmpty then rep ++ s.foldr (fun c acc => c :: (rep ++ acc)) []
  else pyRepGo pat rep s 0

/-- Python `s.split(sep)` for a one-character separator: keeps empty pieces,
`"".split(sep) = [""]`. -/
def splitOnChar (sep : Char) : List Char → List (List Char)
  | [] => [[]]
  | c :: rest =>
    if c = sep then [] :: splitOnChar sep rest
    else
      match splitOnChar sep rest with
      | [] => [[c]]
      | l :: ls => (c :: l) :: ls

/-- Python whitespace characters relevant to `str.strip()`. -/
def pyIsSpace (c : Char) : Bool :=
  c = ' ' || c = '\t' || c = '\n' || c = '\r' || c = '\x0b' || c = '\x0c'

/-- Python truthiness of `line.strip()`: `false` exactly when every character
is whitespace (so the stripped string is empty). -/
def isBlankLine (l : List Char) : Bool := l.all pyIsSpace

/-- Formatting descriptor of a run (`run.bold`, `run.italic`, `run.underline`,
`run.font.name`, `run.font.size`, `run.font.color.rgb` in python-docx), each
field `none` when the underlying attribute is Python `None`.  Font size is the
stored integer length; the colour is an RGB triple (python-docx `RGBColor` is
a 3-tuple, hence always truthy when present). -/
structure Fmt where
  bold : Option Bool
  italic : Option Bool
  underline : Option Bool
  fontName : Option String
  fontSize : Option Nat
  color : Option (Nat × Nat × Nat)
deriving DecidableEq, Repr

/-- Formatting of a freshly added run: every attribute unset. -/
def defaultFmt : Fmt := ⟨none, none, none, none, none, none⟩

/-- A run: a span of text with one formatting descriptor; `image` is the
embedded picture (path and width token) when the run holds one instead of
text (its `text` is then empty, as python-docx reports `""`). -/
structure Run where
  text : List Char
  fmt : Fmt
  image : Option (String × Nat)
deriving DecidableEq, Repr

/-- A paragraph: an ordered sequence of runs. -/
structure Paragraph where
  runs : List Run
deriving DecidableEq, Repr

/-- Concatenation of the runs' texts. -/
def catRunTexts : List Run → List Char
  | [] => []
  | r :: rs => r.text ++ catRunTexts rs

/-- python-docx `paragraph.text`: concatenation of all run texts. -/
def Paragraph.text (p : Paragraph) : List Char := catRunTexts p.runs

/-- A document: top-level paragraphs plus tables (a table is a list of rows,
a row a list of cells, a cell a list of paragraphs), as traversed by
`doc.paragraphs` and `doc.tables` in the scripts. -/
structure Document where
  paragraphs : List Paragraph
  tables : List (List (List (List Paragraph)))
deriving DecidableEq, Repr

/-- All paragraphs of a document in traversal order: top-level paragraphs
first, then every table-cell paragraph. -/
def allParagraphs (doc : Document) : List Paragraph :=
  doc.paragraphs ++
    (doc.tables.map (fun t => (t.map (fun row => row.flatten)).flatten)).flatten

/-- `main2.py` line 76: `run.font.name if run.font.name else None` — the
captured font name, with the empty string (falsy in Python) mapped to `None`.
Lines 77–78 capture size and colour; the colour conditional
`run.font.color.rgb if run.font.color.rgb else None` is the identity on an
optional 3-tuple, since a 3-tuple is always truthy. -/
def captureFmt (f : Fmt) : Fmt :=
  { f with fontName := match f.fontName with
      | some s => if s = "" then none else some s
      | none => none }

/-- Python truthiness of an optional string. -/
def strTruthy : Option String → Bool
  | some s => s ≠ ""
  | none => false

/-- Python truthiness of an optional integer length. -/
def natTruthy : Option Nat → Bool
  | some n => n ≠ 0
  | none => false

/-- `main2.py` lines 90–104: formatting of the single run added after a
paragraph reconstruction.  The new run starts unformatted and each attribute
of the first captured run is copied under the source's condition:
`is not None` for bold/italic/underline, truthiness for font name and size,
presence for the colour tuple. -/
def copyFirstFmt (f : Fmt) : Fmt where
  bold := if f.bold.isSome then f.bold else none
  italic := if f.italic.isSome then f.italic else none
  underline := if f.underline.isSome then f.underline else none
  fontName := if strTruthy f.fontName then f.fontName else none
  fontSize := if natTruthy f.fontSize then f.fontSize else none
  color := if f.color.isSome then f.color else none

/-- `main2.py` lines 61–64: first pass of `replace_in_paragraph` — find the
first run whose text contains `ft` and replace all its occurrences in that
run's text (python-docx's `run.text` setter clears the run's content,
including any embedded drawing, but keeps its formatting).  `none` when no
single run contains `ft`. -/
def replaceInRuns (ft rt : List Char) : List Run → Option (List Run)
  | [] => none
  | r :: rs =>
    if listContains ft r.text then
      some ({ r with text := pyReplace r.text ft rt, image := none } :: rs)
    else
      (replaceInRuns ft rt rs).map (r :: ·)

/-- `main2.py` `replace_in_paragraph(paragraph, find_text, replace_text)`:
returns the modified paragraph and the number of replacements (0 or 1).
Mirrors the source: early return when the aggregate text lacks the key;
single-run replacement when a run contains the key; otherwise capture all run
formats, replace in the full text, clear the paragraph and append one run
formatted from the first captured run (or unformatted when there were no
runs). -/
def replace_in_paragraph (p : Paragraph) (ft rt : List Char) : Paragraph × Nat :=
  if listContains ft p.text then
    match replaceInRuns ft rt p.runs with
    | some rs => (⟨rs⟩, 1)
    | none =>
      if listContains ft p.text then
        match p.runs.map (fun r => captureFmt r.fmt) with
        | first :: _ =>
          (⟨[⟨pyReplace p.text ft rt, copyFirstFmt first, none⟩]⟩, 1)
        | [] => (⟨[⟨pyReplace p.text ft rt, defaultFmt, none⟩]⟩, 1)
      else (p, 0)
  else (p, 0)

/-- `main2.py` lines 28–29 / 36–37: one paragraph of the per-key scan —
call `replace_in_paragraph` when the paragraph's text contains the key. -/
def processParagraph (ft rt : List Char) (p : Paragraph) : Paragraph × Nat :=
  if listContains ft p.text then replace_in_paragraph p ft rt else (p, 0)

/-- Per-key scan over a paragraph list: resulting paragraphs and the summed
replacement count. -/
def processParas (ft rt : List Char) (ps : List Paragraph) : List Paragraph × Nat :=
  (ps.map (fun p => (processParagraph ft rt p).1),
   (ps.map (fun p => (processParagraph ft rt p).2)).sum)

/-- One key's pass of `replace_text_in_document`: scan all top-level
paragraphs, then all table-cell paragraphs, accumulating `replaced_count`. -/
def replaceKeyInDocument (ft rt : List Char) (doc : Document) : Document × Nat :=
  ({ paragraphs := (processParas ft rt doc.paragraphs).1,
     tables := doc.tables.map (fun t => t.map (fun row =>
       row.map (fun cell => (processParas ft rt cell).1))) },
   (processParas ft rt doc.paragraphs).2 +
     (doc.tables.map (fun t => (t.map (fun row =>
       (row.map (fun cell => (processParas ft rt cell).2)).sum)).sum)).sum)

/-- `main2.py` lines 22–24: a multiline replacement value has its newline
characters turned into Word line breaks (`'\r'`). -/
def fixMultiline (rt : List Char) : List Char :=
  if listContains ['\n'] rt then pyReplace rt ['\n'] ['\r'] else rt

/-- `main2.py` `replace_text_in_document(doc, replacements)`: process each
key/value pair in order, threading the document; reports the per-key
`replaced_count` (the script prints a non-fatal warning exactly when that
count is 0). -/
def replace_text_in_document :
    Document → List (List Char × List Char) → Document × List (List Char × Nat)
  | doc, [] => (doc, [])
  | doc, (ft, rt) :: rest =>
    let r1 := replaceKeyInDocument ft (fixMultiline rt) doc
    let r2 := replace_text_in_document r1.1 rest
    (r2.1, (ft, r1.2) :: r2.2)

/-- `main2.py` `replace_text_with_image_in_paragraph`: when the paragraph's
text contains the placeholder, clear the paragraph and append one run holding
the picture at the given width. -/
def replace_text_with_image_in_paragraph
    (p : Paragraph) (ph : List Char) (path : String) (w : Nat) : Paragraph × Nat :=
  if listContains ph p.text then
    (⟨[⟨[], defaultFmt, some (path, w)⟩]⟩, 1)
  else (p, 0)

/-- Image analogue of `processParagraph` (`main2.py` lines 131–132, 139–140). -/
def processImageParagraph (ph : List Char) (path : String) (w : Nat)
    (p : Paragraph) : Paragraph × Nat :=
  if listContains ph p.text then replace_text_with_image_in_paragraph p ph path w
  else (p, 0)

/-- Image scan over a paragraph list. -/
def processImageParas (ph : List Char) (path : String) (w : Nat)
    (ps : List Paragraph) : List Paragraph × Nat :=
  (ps.map (fun p => (processImageParagraph ph path w p).1),
   (ps.map (fun p => (processImageParagraph ph path w p).2)).sum)

/-- One placeholder's pass of `replace_images_in_document`. -/
def replaceImageKeyInDocument (ph : List Char) (path : String) (w : Nat)
    (doc : Document) : Document × Nat :=
  ({ paragraphs := (processImageParas ph path w doc.paragraphs).1,
     tables := doc.tables.map (fun t => t.map (fun row =>
       row.map (fun cell => (processImageParas ph path w cell).1))) },
   (processImageParas ph path w doc.paragraphs).2 +
     (doc.tables.map (fun t => (t.map (fun row =>
       (row.map (fun cell => (processImageParas ph path w cell).2)).sum)).sum)).sum)

/-- `main2.py` `replace_images_in_document(doc, image_replacements, width)`.
`ex` is the file-existence oracle (`os.path.exists`).  The per-placeholder
report is `none` when the image file was missing (the script prints a warning
and `continue`s) and `some count` otherwise (`count = 0` again only prints a
warning). -/
def replace_images_in_document (ex : String → Bool) :
    Document → List (List Char × String) → Nat → Document × List (List Char × Option Nat)
  | doc, [], _ => (doc, [])
  | doc, (ph, path) :: rest, w =>
    if ex path then
      let r1 := replaceImageKeyInDocument ph path w doc
      let r2 := replace_images_in_document ex r1.1 rest w
      (r2.1, (ph, some r1.2) :: r2.2)
    else
      let r2 := replace_images_in_document ex doc rest w
      (r2.1, (ph, none) :: r2.2)

/-- Tabular dataset: named columns and rows of stringified cell values,
each row aligned with `columns`. -/
structure DataFrame where
  columns : List String
  rows : List (List String)
deriving DecidableEq, Repr

/-- The scripts' key format `"{}{:02d}"`: column name followed by the
zero-padded (width 2) 1-based position. -/
def keyFormatDefault (c : String) (i : Nat) : String :=
  c ++ (if i < 10 then "0" ++ toString i else toString i)

/-- `main2.py` lines 186–187: split a list into consecutive chunks of `n`
elements (`table.iloc[i:i+n]` for `i in range(0, len(table), n)`); the last
chunk may be shorter.  Defined for `n ≥ 1` (Python raises on step 0; for
`n = 0` this behaves like `n = 1`). -/
def chunkList {α : Type} (n : Nat) : List α → List (List α)
  | [] => []
  | x :: xs => (x :: xs.take (n - 1)) :: chunkList n (xs.drop (n - 1))
termination_by l => l.length
decreasing_by
  simp only [List.length_cons, List.length_drop]
  omega

/-- `row[column]`: the value of the first column named `c` in a row. -/
def rowValue (cols : List String) (c : String) (row : List String) : Option String :=
  ((cols.zip row).find? (fun cv => cv.1 == c)).map (fun cv => cv.2)

/-- `main2.py` lines 195–198: the text-dictionary entries one row contributes
— one key per column that is neither the image column nor `'id'`. -/
def rowTextPairs (cols : List String) (ic : String) (idx : Nat)
    (row : List String) : List (String × String) :=
  (cols.zip row).filterMap (fun cv =>
    if cv.1 ≠ ic ∧ cv.1 ≠ "id" then some (keyFormatDefault cv.1 idx, cv.2) else none)

/-- `main2.py` lines 201–203: the image-dictionary entry one row contributes
when the image column exists. -/
def rowImagePairs (cols : List String) (ic : String) (idx : Nat)
    (row : List String) : List (String × String) :=
  if ic ∈ cols then [(keyFormatDefault ic idx, (rowValue cols ic row).getD "")] else []

/-- Text dictionary of one chunk: rows enumerated from the given 1-based
position (`enumerate(chunk.iterrows(), 1)`), entries in insertion order. -/
def groupTextDict (cols : List String) (ic : String) : Nat → List (List String) →
    List (String × String)
  | _, [] => []
  | idx, row :: rest => rowTextPairs cols ic idx row ++ groupTextDict cols ic (idx + 1) rest

/-- Image dictionary of one chunk. -/
def groupImageDict (cols : List String) (ic : String) : Nat → List (List String) →
    List (String × String)
  | _, [] => []
  | idx, row :: rest => rowImagePairs cols ic idx row ++ groupImageDict cols ic (idx + 1) rest

/-- Both dictionaries of one chunk. -/
def groupDicts (cols : List String) (ic : String) (chunk : List (List String)) :
    List (String × String) × List (String × String) :=
  (groupTextDict cols ic 1 chunk, groupImageDict cols ic 1 chunk)

/-- `main2.py` `table_to_dicts(table, count_per_doc, image_column, ...)` with
the default key format: one `(text_dict, image_dict)` pair per row group. -/
def table_to_dicts (df : DataFrame) (n : Nat) (ic : String) :
    List (List (String × String) × List (String × String)) :=
  (chunkList n df.rows).map (groupDicts df.columns ic)

/-! ## `tests/main.py`: multiline text placeholders (`replace_text_placeholders`) -/

/-- `tests/main.py` lines 84–95: formatting of a run added to a new appended
paragraph, copied from the first run of the matched paragraph (consulted after
the first-line replacement).  `font.name`, `font.size`, `font.bold` and
`font.italic` are assigned directly (assigning `None` just leaves the
attribute unset); assigning `font.color.rgb = None` raises, which the bare
`except` swallows after the first four assignments already took effect — so
the colour is copied exactly when present.  Underline is never copied.
With no runs to copy from, the new run stays unformatted. -/
def copyFmtML : List Run → Fmt
  | [] => defaultFmt
  | r :: _ =>
    { bold := r.fmt.bold, italic := r.fmt.italic, underline := none,
      fontName := r.fmt.fontName, fontSize := r.fmt.fontSize, color := r.fmt.color }

/-- `tests/main.py` lines 54–63: replace the placeholder by the first line —
inside the first run containing it when one exists, otherwise through the
`paragraph.text` setter, which replaces all runs by a single unformatted run
holding the replaced aggregate text. -/
def transformParaML (ph first : List Char) (p : Paragraph) : Paragraph :=
  match replaceInRuns ph first p.runs with
  | some rs => ⟨rs⟩
  | none => ⟨[⟨pyReplace p.text ph first, defaultFmt, none⟩]⟩

/-- `tests/main.py` lines 43–99, one placeholder applied to one cell: every
paragraph of the cell whose text contains the placeholder is rewritten with
the value's first line, and each further non-blank line of the value becomes
a new paragraph appended at the end of the cell (python-docx
`cell.add_paragraph()`), its single run formatted by `copyFmtML` from the
rewritten paragraph's runs.  The loop iterates the snapshot of
`cell.paragraphs`, so appended paragraphs are not re-examined.  Returns the
cell and the number of matched paragraphs (`replaced_count`). -/
def replaceTextPlaceholderInCell (ph value : List Char) (cell : List Paragraph) :
    List Paragraph × Nat :=
  let lines := splitOnChar '\n' value
  let first := lines.headD []
  let extras := (lines.drop 1).filter (fun l => !isBlankLine l)
  let results := cell.map (fun p =>
    if listContains ph p.text then
      let q := transformParaML ph first p
      (q, extras.map (fun l => (⟨[⟨l, copyFmtML q.runs, none⟩]⟩ : Paragraph)), 1)
    else (p, ([] : List Paragraph), 0))
  ((results.map (fun x => x.1)) ++ (results.map (fun x => x.2.1)).flatten,
   (results.map (fun x => x.2.2)).sum)

/-! ## `tests/main.py` / `tests/test.py`: bulk dummy-image replacement -/

/-- A run as seen by `replace_all_images_with_dummies`: `image` is true when
the run's XML holds a picture (`a:blip` or `w:pict`); `file` records the
picture's source (the script only sets it for the dummies it inserts); `cx`
is the stored display width in EMU recovered from the drawing's extent
(0 when no positive extent is recoverable, matching `get('cx', 0)`). -/
structure XRun where
  text : List Char
  image : Bool
  file : Option String
  cx : Nat
deriving DecidableEq, Repr

/-- `os.path.join` for a directory without a trailing separator. -/
def joinPath (dir name : String) : String := dir ++ "/" ++ name

/-- Width given to a replacement picture: the recovered width when positive,
otherwise the fallback `Inches(2.0)` = 1828800 EMU. -/
def newWidthEmu (r : XRun) : Nat := if 0 < r.cx then r.cx else 1828800

/-- The run inserted by `new_run.add_picture(dummy_file, width=width)`. -/
def dummyXRun (path : String) (w : Nat) : XRun :=
  { text := [], image := true, file := some path, cx := w }

/-- Result of scanning one run list: `kept` are the runs left in place (the
removed image runs deleted), `app` the dummy runs appended at the paragraph's
end, `logs` the progress messages as
(printed counter, path of the picture inserted, file name printed), and
`cnt` the final `image_count`. -/
structure PRes where
  kept : List XRun
  app : List XRun
  logs : List (Nat × String × String)
  cnt : Nat
deriving DecidableEq, Repr

/-- Loop body of `replace_all_images_with_dummies` over one paragraph's run
snapshot: an image run is, while the pool lasts, removed and a dummy run for
`dummy_files[image_count]` appended; `image_count` is then incremented and the
message prints `dummy_files[image_count-1]`. -/
def processXRuns (dir : String) (pool : List String) : List XRun → Nat → PRes
  | [], cnt => ⟨[], [], [], cnt⟩
  | r :: rs, cnt =>
    if r.image ∧ cnt < pool.length then
      let path := joinPath dir (pool.getD cnt "")
      let res := processXRuns dir pool rs (cnt + 1)
      ⟨res.kept, dummyXRun path (newWidthEmu r) :: res.app,
       (cnt + 1, path, pool.getD (cnt + 1 - 1) "") :: res.logs, res.cnt⟩
    else
      let res := processXRuns dir pool rs cnt
      ⟨r :: res.kept, res.app, res.logs, res.cnt⟩

/-- One paragraph processed: kept runs followed by the appended dummies. -/
def processXPara (dir : String) (pool : List String) (runs : List XRun) (cnt : Nat) :
    List XRun × List (Nat × String × String) × Nat :=
  let r := processXRuns dir pool runs cnt
  (r.kept ++ r.app, r.logs, r.cnt)

/-- Thread `image_count` and the log through a list of sub-structures. -/
def threadMap {α β : Type} (f : α → Nat → β × List (Nat × String × String) × Nat) :
    List α → Nat → List β × List (Nat × String × String) × Nat
  | [], cnt => ([], [], cnt)
  | x :: xs, cnt =>
    let r := f x cnt
    let rest := threadMap f xs r.2.2
    (r.1 :: rest.1, r.2.1 ++ rest.2.1, rest.2.2)

/-- Document traversed by the bulk replacement: paragraphs, then tables of
rows of cells of paragraphs of runs. -/
structure XDoc where
  paragraphs : List (List XRun)
  tables : List (List (List (List (List XRun))))
deriving DecidableEq, Repr

/-- Total number of image runs of a run list. -/
def countImgs (runs : List XRun) : Nat := runs.countP (fun r => r.image)

/-- Total number of image runs of the whole document, in traversal order. -/
def docImgCount (doc : XDoc) : Nat :=
  (doc.paragraphs.map countImgs).sum +
    (doc.tables.map (fun t => (t.map (fun row =>
      (row.map (fun cell => (cell.map countImgs).sum)).sum)).sum)).sum

/-- Result of `replace_all_images_with_dummies`: the new document, the
progress log, the final `image_count` and the returned success flag
(`tests/main.py` returns `image_count > 0`; `tests/test.py` returns `True`
after a successful save — identical in every scenario with a replacement). -/
structure BulkRes where
  doc : XDoc
  logs : List (Nat × String × String)
  count : Nat
  success : Bool
deriving DecidableEq, Repr

/-- `replace_all_images_with_dummies(doc_path, output_path, dummy_dir)` with
the naturally sorted pool `pool` of `.jpg` files found in `dir`: an empty pool
aborts with `False`; otherwise every run of every paragraph, then of every
table cell, that holds a picture is replaced (in encountered order) by the
next unused pool file while the pool lasts. -/
def replace_all_images_with_dummies (dir : String) (pool : List String)
    (doc : XDoc) : BulkRes :=
  if pool.isEmpty then ⟨doc, [], 0, false⟩
  else
    let rp := threadMap (processXPara dir pool) doc.paragraphs 0
    let rt := threadMap (threadMap (threadMap (threadMap (processXPara dir pool))))
      doc.tables rp.2.2
    ⟨⟨rp.1, rt.1⟩, rp.2.1 ++ rt.2.1, rt.2.2, decide (0 < rt.2.2)⟩

/-- Statement vocabulary: remove the first `j` image runs of a run list,
leaving every other run in place ("the remaining embedded images are left
untouched" once the pool is exhausted). -/
def dropImgs : Nat → List XRun → List XRun
  | 0, rs => rs
  | _ + 1, [] => []
  | j + 1, r :: rs => if r.image then dropImgs j rs else r :: dropImgs (j + 1) rs

/-- Statement vocabulary: the progress-log segment for replacements numbered
`a` (0-based) up to `b` — entry `j` prints counter `j + 1`, inserts
`dir/pool[j]` and names `pool[j]`. -/
def mkLogs (dir : String) (pool : List String) (a b : Nat) :
    List (Nat × String × String) :=
  (List.range' a (b - a)).map
    (fun j => (j + 1, joinPath dir (pool.getD j ""), pool.getD j ""))

/-! ## Basic lemmas about the string primitives -/

theorem isPrefixOf_iff_exists (l1 l2 : List Char) :
    l1.isPrefixOf l2 = true ↔ ∃ t, l1 ++ t = l2 := by
  induction l1 generalizing l2 with
  | nil => simp [List.isPrefixOf]
  | cons a as ih =>
    cases l2 with
    | nil => simp [List.isPrefixOf]
    | cons b bs =>
      simp only [List.isPrefixOf, Bool.and_eq_true, beq_iff_eq, ih, List.cons_append,
        List.cons.injEq]
      constructor
      · rintro ⟨rfl, t, rfl⟩
        exact ⟨t, rfl, rfl⟩
      · rintro ⟨t, rfl, rfl⟩
        exact ⟨rfl, t, rfl⟩

theorem listContains_iff (pat l : List Char) :
    listContains pat l = true ↔ ∃ x y, x ++ pat ++ y = l := by
  induction l with
  | nil =>
    simp only [listContains, List.isEmpty_iff]
    constructor
    · rintro rfl
      exact ⟨[], [], rfl⟩
    · rintro ⟨x, y, h⟩
      rcases List.append_eq_nil.mp h with ⟨h1, h2⟩
      exact (List.append_eq_nil.mp h1).2
  | cons c rest ih =>
    simp only [listContains, Bool.or_eq_true, isPrefixOf_iff_exists, ih]
    constructor
    · rintro (⟨t, ht⟩ | ⟨x, y, rfl⟩)
      · exact ⟨[], t, by simpa using ht⟩
      · exact ⟨c :: x, y, rfl⟩
    · rintro ⟨x, y, h⟩
      cases x with
      | nil =>
        exact Or.inl ⟨y, by simpa using h⟩
      | cons x0 xs =>
        rcases List.cons.injEq .. ▸ h with ⟨rfl, h2⟩
        exact Or.inr ⟨xs, y, h2⟩

theorem listContains_mid (pat a b c : List Char) (h : listContains pat b = true) :
    listContains pat (a ++ b ++ c) = true := by
  rw [listContains_iff] at h ⊢
  obtain ⟨x, y, rfl⟩ := h
  exact ⟨a ++ x, y ++ c, by simp [List.append_assoc]⟩

theorem catRunTexts_append (l1 l2 : List Run) :
    catRunTexts (l1 ++ l2) = catRunTexts l1 ++ catRunTexts l2 := by
  induction l1 with
  | nil => rfl
  | cons r rs ih => simp [catRunTexts, ih]

/-! ## Lemmas on the single-run replacement pass -/

theorem replaceInRuns_none (ft rt : List Char) (runs : List Run)
    (h : ∀ r ∈ runs, listContains ft r.text = false) :
    replaceInRuns ft rt runs = none := by
  induction runs with
  | nil => rfl
  | cons r rs ih =>
    have hr := h r (List.mem_cons_self r rs)
    simp [replaceInRuns, hr, ih fun q hq => h q (List.mem_cons_of_mem r hq)]

theorem replaceInRuns_first (ft rt : List Char) (pre : List Run) (r : Run)
    (post : List Run) (hpre : ∀ q ∈ pre, listContains ft q.text = false)
    (hr : listContains ft r.text = true) :
    replaceInRuns ft rt (pre ++ r :: post) =
      some (pre ++ { r with text := pyReplace r.text ft rt, image := none } :: post) := by
  induction pre with
  | nil => simp [replaceInRuns, hr]
  | cons q qs ih =>
    have hq := hpre q (List.mem_cons_self q qs)
    simp [replaceInRuns, hq, ih fun x hx => hpre x (List.mem_cons_of_mem q hx)]

theorem text_split_of_runs_split (p : Paragraph) (pre : List Run) (r : Run)
    (post : List Run) (h : p.runs = pre ++ r :: post) :
    p.text = catRunTexts pre ++ r.text ++ catRunTexts post := by
  show catRunTexts p.runs = _
  rw [h, catRunTexts_append]
  simp [catRunTexts, List.append_assoc]

/-- Claim C3: `replace_in_paragraph` reports 0 or 1 — exactly 1 when the
paragraph's aggregate text contains the key (however many occurrences it has),
and the per-key document count is the number of paragraphs, in traversal
order, whose text contains the key. -/
theorem splice_count_per_paragraph (ft rt : List Char) :
    (∀ p : Paragraph,
      (replace_in_paragraph p ft rt).2 = if listContains ft p.text then 1 else 0) ∧
    (∀ doc : Document,
      (replaceKeyInDocument ft rt doc).2 =
        (allParagraphs doc).countP (fun p => listContains ft p.text)) := by
  have hp : ∀ p : Paragraph,
      (replace_in_paragraph p ft rt).2 = if listContains ft p.text then 1 else 0 := by
    intro p
    by_cases h : listContains ft p.text = true
    · cases hr : replaceInRuns ft rt p.runs with
      | none =>
        cases hruns : p.runs with
        | nil => simp [replace_in_paragraph, h, hruns, replaceInRuns]
        | cons a as =>
          rw [hruns] at hr
          simp [replace_in_paragraph, h, hruns, hr]
      | some rs => simp [replace_in_paragraph, h, hr]
    · rw [Bool.not_eq_true] at h
      simp [replace_in_paragraph, h]
  have hps : ∀ ps : List Paragraph,
      (processParas ft rt ps).2 = ps.countP (fun p => listContains ft p.text) := by
    intro ps
    induction ps with
    | nil => rfl
    | cons q qs ih =>
      by_cases h : listContains ft q.text = true
      · simp [processParas, List.countP_cons, processParagraph, h, hp] at ih ⊢
        omega
      · rw [Bool.not_eq_true] at h
        simp [processParas, List.countP_cons, processParagraph, h, hp] at ih ⊢
        exact ih
  refine ⟨hp, fun doc => ?_⟩
  have hcell : ∀ row : List (List Paragraph),
      (row.map (fun cell => (processParas ft rt cell).2)).sum =
        (row.flatten).countP (fun p => listContains ft p.text) := by
    intro row
    induction row with
    | nil => rfl
    | cons cell rest ih =>
      simp only [List.map_cons, List.sum_cons, List.flatten_cons, List.countP_append,
        hps]
      congr 1
      exact (List.countP_flatten _ _).symm
  have hrow : ∀ t : List (List (List Paragraph)),
      (t.map (fun row => (row.map (fun cell => (processParas ft rt cell).2)).sum)).sum =
        ((t.map (fun row => row.flatten)).flatten).countP
          (fun p => listContains ft p.text) := by
    intro t
    induction t with
    | nil => rfl
    | cons row rest ih =>
      simp only [List.map_cons, List.sum_cons, List.flatten_cons, List.countP_append,
        hcell]
      congr 1
      rw [List.countP_flatten, List.map_map]
      rfl
  have htabs : ∀ ts : List (List (List (List Paragraph))),
      (ts.map (fun t => (t.map (fun row =>
          (row.map (fun cell => (processParas ft rt cell).2)).sum)).sum)).sum =
        ((ts.map (fun t => (t.map (fun row => row.flatten)).flatten)).flatten).countP
          (fun p => listContains ft p.text) := by
    intro ts
    induction ts with
    | nil => rfl
    | cons t rest ih =>
      simp only [List.map_cons, List.sum_cons, List.flatten_cons, List.countP_append,
        hrow]
      congr 1
      rw [List.countP_flatten, List.map_map]
      rfl
  simp only [replaceKeyInDocument, allParagraphs, List.countP_append]
  rw [hps doc.paragraphs, htabs]

/-- Claim C1: when the paragraph's aggregate text contains the key but no
single run does, `replace_in_paragraph` clears the paragraph and appends
exactly one run holding the aggregate text with the key replaced by the
value; its formatting is copied field-wise from the first original run where
the source's copy condition holds (`is not None` for bold/italic/underline,
non-empty for the font name, non-zero for the font size, presence for the
colour), and with no original runs the single appended run is unformatted. -/
theorem replace_in_paragraph_straddling (p : Paragraph) (k v : List Char)
    (hk : listContains k p.text = true)
    (hr : ∀ r ∈ p.runs, listContains k r.text = false) :
    (replace_in_paragraph p k v).2 = 1 ∧
    ∃ nr : Run,
      (replace_in_paragraph p k v).1.runs = [nr] ∧
      nr.text = pyReplace p.text k v ∧
      (p.runs = [] → nr.fmt = defaultFmt) ∧
      ∀ r rs, p.runs = r :: rs →
        nr.fmt.bold = r.fmt.bold ∧
        nr.fmt.italic = r.fmt.italic ∧
        nr.fmt.underline = r.fmt.underline ∧
        (∀ s, r.fmt.fontName = some s → s ≠ "" → nr.fmt.fontName = some s) ∧
        (r.fmt.fontName = none → nr.fmt.fontName = none) ∧
        (∀ m, r.fmt.fontSize = some m → m ≠ 0 → nr.fmt.fontSize = some m) ∧
        (r.fmt.fontSize = none → nr.fmt.fontSize = none) ∧
        nr.fmt.color = r.fmt.color := by
  have hnone := replaceInRuns_none k v p.runs hr
  cases hruns : p.runs with
  | nil =>
    rw [hruns] at hnone
    have heq : replace_in_paragraph p k v =
        (⟨[⟨pyReplace p.text k v, defaultFmt, none⟩]⟩, 1) := by
      simp [replace_in_paragraph, hk, hruns, hnone]
    refine ⟨by rw [heq], ⟨pyReplace p.text k v, defaultFmt, none⟩, by rw [heq],
      rfl, fun _ => rfl, fun r rs hcontra => absurd hcontra.symm (List.cons_ne_nil r rs)⟩
  | cons r0 rs0 =>
    rw [hruns] at hnone
    have heq : replace_in_paragraph p k v =
        (⟨[⟨pyReplace p.text k v, copyFirstFmt (captureFmt r0.fmt), none⟩]⟩, 1) := by
      simp [replace_in_paragraph, hk, hruns, hnone]
    refine ⟨by rw [heq], ⟨pyReplace p.text k v, copyFirstFmt (captureFmt r0.fmt), none⟩,
      by rw [heq], rfl, fun hcontra => absurd hcontra (List.cons_ne_nil r0 rs0),
      fun r rs hrr => ?_⟩
    obtain ⟨rfl, rfl⟩ : r0 = r ∧ rs0 = rs := by
      injection hrr with h1 h2
      exact ⟨h1, h2⟩
    refine ⟨?_, ?_, ?_, ?_, ?_, ?_, ?_, ?_⟩
    · cases hb : r0.fmt.bold <;> simp [copyFirstFmt, captureFmt, hb]
    · cases hb : r0.fmt.italic <;> simp [copyFirstFmt, captureFmt, hb]
    · cases hb : r0.fmt.underline <;> simp [copyFirstFmt, captureFmt, hb]
    · intro s hs hne
      simp [copyFirstFmt, captureFmt, hs, strTruthy, hne]
    · intro hs
      simp [copyFirstFmt, captureFmt, hs, strTruthy]
    · intro m hm hne
      simp [copyFirstFmt, captureFmt, hm, natTruthy, hne]
    · intro hm
      simp [copyFirstFmt, captureFmt, hm, natTruthy]
    · cases hb : r0.fmt.color <;> simp [copyFirstFmt, captureFmt, hb]

/-- Witness for C1 at a concrete two-run paragraph whose key `"bc"` straddles
the runs `"ab"` and `"cd"`. -/
theorem replace_in_paragraph_straddling_witness :
    (listContains ['b', 'c'] (Paragraph.text ⟨[⟨['a', 'b'],
        ⟨some true, some false, none, some "Arial", some 24, some (1, 2, 3)⟩, none⟩,
      ⟨['c', 'd'], defaultFmt, none⟩]⟩) = true) ∧
    (∀ r ∈ (Paragraph.mk [⟨['a', 'b'],
        ⟨some true, some false, none, some "Arial", some 24, some (1, 2, 3)⟩, none⟩,
      ⟨['c', 'd'], defaultFmt, none⟩]).runs, listContains ['b', 'c'] r.text = false) ∧
    ((replace_in_paragraph ⟨[⟨['a', 'b'],
        ⟨some true, some false, none, some "Arial", some 24, some (1, 2, 3)⟩, none⟩,
      ⟨['c', 'd'], defaultFmt, none⟩]⟩ ['b', 'c'] ['X']).2 = 1 ∧
     ∃ nr : Run,
      (replace_in_paragraph ⟨[⟨['a', 'b'],
          ⟨some true, some false, none, some "Arial", some 24, some (1, 2, 3)⟩, none⟩,
        ⟨['c', 'd'], defaultFmt, none⟩]⟩ ['b', 'c'] ['X']).1.runs = [nr] ∧
      nr.text = pyReplace (Paragraph.text ⟨[⟨['a', 'b'],
          ⟨some true, some false, none, some "Arial", some 24, some (1, 2, 3)⟩, none⟩,
        ⟨['c', 'd'], defaultFmt, none⟩]⟩) ['b', 'c'] ['X'] ∧
      ((Paragraph.mk [⟨['a', 'b'],
          ⟨some true, some false, none, some "Arial", some 24, some (1, 2, 3)⟩, none⟩,
        ⟨['c', 'd'], defaultFmt, none⟩]).runs = [] → nr.fmt = defaultFmt) ∧
      ∀ r rs, (Paragraph.mk [⟨['a', 'b'],
          ⟨some true, some false, none, some "Arial", some 24, some (1, 2, 3)⟩, none⟩,
        ⟨['c', 'd'], defaultFmt, none⟩]).runs = r :: rs →
        nr.fmt.bold = r.fmt.bold ∧
        nr.fmt.italic = r.fmt.italic ∧
        nr.fmt.underline = r.fmt.underline ∧
        (∀ s, r.fmt.fontName = some s → s ≠ "" → nr.fmt.fontName = some s) ∧
        (r.fmt.fontName = none → nr.fmt.fontName = none) ∧
        (∀ m, r.fmt.fontSize = some m → m ≠ 0 → nr.fmt.fontSize = some m) ∧
        (r.fmt.fontSize = none → nr.fmt.fontSize = none) ∧
        nr.fmt.color = r.fmt.color) :=
  ⟨by decide, by decide, replace_in_paragraph_straddling _ _ _ (by decide) (by decide)⟩

/-- Claim C2: when a run of the paragraph contains the key (`pre` listing the
earlier, non-matching runs), only that run's text changes; every other run —
text and formatting — is left in place unchanged, and the modified run keeps
its formatting. -/
theorem single_run_replacement_frame (p : Paragraph) (k v : List Char)
    (pre post : List Run) (r : Run)
    (hsplit : p.runs = pre ++ r :: post)
    (hpre : ∀ q ∈ pre, listContains k q.text = false)
    (hr : listContains k r.text = true) :
    (replace_in_paragraph p k v).2 = 1 ∧
    ∃ nr : Run,
      (replace_in_paragraph p k v).1.runs = pre ++ nr :: post ∧
      nr.text = pyReplace r.text k v ∧
      nr.fmt = r.fmt := by
  have htext := text_split_of_runs_split p pre r post hsplit
  have hcont : listContains k p.text = true := by
    rw [htext]
    exact listContains_mid k (catRunTexts pre) r.text (catRunTexts post) hr
  have hsome := replaceInRuns_first k v pre r post hpre hr
  rw [← hsplit] at hsome
  have heq : replace_in_paragraph p k v =
      (⟨pre ++ { r with text := pyReplace r.text k v, image := none } :: post⟩, 1) := by
    simp [replace_in_paragraph, hcont, hsome]
  exact ⟨by rw [heq], { r with text := pyReplace r.text k v, image := none },
    by rw [heq], rfl, rfl⟩

/-- Witness for C2 at a paragraph with three runs where only the middle run
contains the key. -/
theorem single_run_replacement_frame_witness :
    ((Paragraph.mk [⟨['a'], defaultFmt, none⟩,
        ⟨['h', 'i', ' ', 'K', 'E', 'Y'], ⟨some true, none, none, none, none, none⟩, none⟩,
        ⟨['z'], defaultFmt, none⟩]).runs =
      [⟨['a'], defaultFmt, none⟩] ++
        ⟨['h', 'i', ' ', 'K', 'E', 'Y'], ⟨some true, none, none, none, none, none⟩, none⟩ ::
          [⟨['z'], defaultFmt, none⟩]) ∧
    (∀ q ∈ [(⟨['a'], defaultFmt, none⟩ : Run)], listContains ['K', 'E', 'Y'] q.text = false) ∧
    (listContains ['K', 'E', 'Y']
      (Run.text ⟨['h', 'i', ' ', 'K', 'E', 'Y'], ⟨some true, none, none, none, none, none⟩, none⟩) = true) ∧
    ((replace_in_paragraph ⟨[⟨['a'], defaultFmt, none⟩,
        ⟨['h', 'i', ' ', 'K', 'E', 'Y'], ⟨some true, none, none, none, none, none⟩, none⟩,
        ⟨['z'], defaultFmt, none⟩]⟩ ['K', 'E', 'Y'] ['B', 'o', 'b']).2 = 1 ∧
     ∃ nr : Run,
      (replace_in_paragraph ⟨[⟨['a'], defaultFmt, none⟩,
          ⟨['h', 'i', ' ', 'K', 'E', 'Y'], ⟨some true, none, none, none, none, none⟩, none⟩,
          ⟨['z'], defaultFmt, none⟩]⟩ ['K', 'E', 'Y'] ['B', 'o', 'b']).1.runs =
        [⟨['a'], defaultFmt, none⟩] ++ nr :: [⟨['z'], defaultFmt, none⟩] ∧
      nr.text = pyReplace ['h', 'i', ' ', 'K', 'E', 'Y'] ['K', 'E', 'Y'] ['B', 'o', 'b'] ∧
      nr.fmt = ⟨some true, none, none, none, none, none⟩) :=
  ⟨by decide, by decide, by decide,
    single_run_replacement_frame
      ⟨[⟨['a'], defaultFmt, none⟩,
        ⟨['h', 'i', ' ', 'K', 'E', 'Y'], ⟨some true, none, none, none, none, none⟩, none⟩,
        ⟨['z'], defaultFmt, none⟩]⟩
      ['K', 'E', 'Y'] ['B', 'o', 'b']
      [⟨['a'], defaultFmt, none⟩] [⟨['z'], defaultFmt, none⟩]
      ⟨['h', 'i', ' ', 'K', 'E', 'Y'], ⟨some true, none, none, none, none, none⟩, none⟩
      (by decide) (by decide) (by decide)⟩

/-- Claim C10: when the key is contained in several runs, only the first such
run is rewritten (with every occurrence inside that run's text replaced) and
the splice reports 1 immediately; later runs keep their occurrences of the
key, and the per-key document pass still counts that paragraph once and does
not revisit it. -/
theorem first_matching_run_only (p : Paragraph) (k v : List Char)
    (pre post : List Run) (r q : Run)
    (hsplit : p.runs = pre ++ r :: post)
    (hpre : ∀ x ∈ pre, listContains k x.text = false)
    (hr : listContains k r.text = true)
    (hq : q ∈ post) (hqk : listContains k q.text = true) :
    replace_in_paragraph p k v =
      (⟨pre ++ { r with text := pyReplace r.text k v, image := none } :: post⟩, 1) ∧
    (∃ x ∈ (replace_in_paragraph p k v).1.runs, listContains k x.text = true) ∧
    replaceKeyInDocument k v ⟨[p], []⟩ =
      (⟨[⟨pre ++ { r with text := pyReplace r.text k v, image := none } :: post⟩], []⟩, 1) := by
  have htext := text_split_of_runs_split p pre r post hsplit
  have hcont : listContains k p.text = true := by
    rw [htext]
    exact listContains_mid k (catRunTexts pre) r.text (catRunTexts post) hr
  have hsome := replaceInRuns_first k v pre r post hpre hr
  rw [← hsplit] at hsome
  have heq : replace_in_paragraph p k v =
      (⟨pre ++ { r with text := pyReplace r.text k v, image := none } :: post⟩, 1) := by
    simp [replace_in_paragraph, hcont, hsome]
  refine ⟨heq, ⟨q, ?_, hqk⟩, ?_⟩
  · rw [heq]
    exact List.mem_append_right pre (List.mem_cons_of_mem _ hq)
  · simp [replaceKeyInDocument, processParas, processParagraph, hcont, heq]

/-- Witness for C10 at a paragraph whose first and third runs both contain
the key; the first occurs twice inside its run. -/
theorem first_matching_run_only_witness :
    ((Paragraph.mk [⟨['K', 'x', 'K'], ⟨none, some true, none, none, none, none⟩, none⟩,
        ⟨['m'], defaultFmt, none⟩, ⟨['K'], defaultFmt, none⟩]).runs =
      [] ++ ⟨['K', 'x', 'K'], ⟨none, some true, none, none, none, none⟩, none⟩ ::
        [⟨['m'], defaultFmt, none⟩, ⟨['K'], defaultFmt, none⟩]) ∧
    (∀ x ∈ ([] : List Run), listContains ['K'] x.text = false) ∧
    (listContains ['K']
      (Run.text ⟨['K', 'x', 'K'], ⟨none, some true, none, none, none, none⟩, none⟩) = true) ∧
    ((⟨['K'], defaultFmt, none⟩ : Run) ∈ [(⟨['m'], defaultFmt, none⟩ : Run),
      ⟨['K'], defaultFmt, none⟩]) ∧
    (listContains ['K'] (Run.text ⟨['K'], defaultFmt, none⟩) = true) ∧
    (replace_in_paragraph ⟨[⟨['K', 'x', 'K'], ⟨none, some true, none, none, none, none⟩, none⟩,
        ⟨['m'], defaultFmt, none⟩, ⟨['K'], defaultFmt, none⟩]⟩ ['K'] ['v'] =
      (⟨[] ++ { Run.mk ['K', 'x', 'K'] ⟨none, some true, none, none, none, none⟩ none with
          text := pyReplace ['K', 'x', 'K'] ['K'] ['v'], image := none } ::
        [⟨['m'], defaultFmt, none⟩, ⟨['K'], defaultFmt, none⟩]⟩, 1) ∧
     (∃ x ∈ (replace_in_paragraph ⟨[⟨['K', 'x', 'K'],
          ⟨none, some true, none, none, none, none⟩, none⟩,
        ⟨['m'], defaultFmt, none⟩, ⟨['K'], defaultFmt, none⟩]⟩ ['K'] ['v']).1.runs,
        listContains ['K'] x.text = true) ∧
     replaceKeyInDocument ['K'] ['v']
        ⟨[⟨[⟨['K', 'x', 'K'], ⟨none, some true, none, none, none, none⟩, none⟩,
          ⟨['m'], defaultFmt, none⟩, ⟨['K'], defaultFmt, none⟩]⟩], []⟩ =
      (⟨[⟨[] ++ { Run.mk ['K', 'x', 'K'] ⟨none, some true, none, none, none, none⟩ none with
          text := pyReplace ['K', 'x', 'K'] ['K'] ['v'], image := none } ::
        [⟨['m'], defaultFmt, none⟩, ⟨['K'], defaultFmt, none⟩]⟩], []⟩, 1)) :=
  ⟨by decide, by decide, by decide, by decide, by decide,
    first_matching_run_only
      ⟨[⟨['K', 'x', 'K'], ⟨none, some true, none, none, none, none⟩, none⟩,
        ⟨['m'], defaultFmt, none⟩, ⟨['K'], defaultFmt, none⟩]⟩
      ['K'] ['v'] []
      [⟨['m'], defaultFmt, none⟩, ⟨['K'], defaultFmt, none⟩]
      ⟨['K', 'x', 'K'], ⟨none, some true, none, none, none, none⟩, none⟩
      ⟨['K'], defaultFmt, none⟩
      (by decide) (by decide) (by decide) (by decide) (by decide)⟩

/-! ## Lemmas for the whole-document passes -/

theorem map_id_of_mem {α : Type} (f : α → α) (l : List α) (h : ∀ a ∈ l, f a = a) :
    l.map f = l := by
  induction l with
  | nil => rfl
  | cons a as ih =>
    rw [List.map_cons, h a (List.mem_cons_self a as),
      ih fun x hx => h x (List.mem_cons_of_mem a hx)]

theorem sum_eq_zero_of_mem (l : List Nat) (h : ∀ a ∈ l, a = 0) : l.sum = 0 := by
  induction l with
  | nil => rfl
  | cons a as ih =>
    rw [List.sum_cons, h a (List.mem_cons_self a as),
      ih fun x hx => h x (List.mem_cons_of_mem a hx)]

theorem processParas_absent (ft rt : List Char) (ps : List Paragraph)
    (h : ∀ p ∈ ps, listContains ft p.text = false) :
    processParas ft rt ps = (ps, 0) := by
  unfold processParas
  refine Prod.ext ?_ ?_
  · exact map_id_of_mem _ ps fun p hp => by simp [processParagraph, h p hp]
  · exact sum_eq_zero_of_mem _ fun a ha => by
      obtain ⟨p, hp, rfl⟩ := List.mem_map.mp ha
      simp [processParagraph, h p hp]

theorem replaceKeyInDocument_absent (ft rt : List Char) (doc : Document)
    (h : ∀ p ∈ allParagraphs doc, listContains ft p.text = false) :
    replaceKeyInDocument ft rt doc = (doc, 0) := by
  have htop : ∀ p ∈ doc.paragraphs, listContains ft p.text = false := fun p hp =>
    h p (List.mem_append_left _ hp)
  have hcell : ∀ t ∈ doc.tables, ∀ row ∈ t, ∀ cell ∈ row, ∀ p ∈ cell,
      listContains ft p.text = false := by
    intro t ht row hrow cell hc p hp
    refine h p (List.mem_append_right _ ?_)
    exact List.mem_flatten.mpr ⟨(t.map (fun r => r.flatten)).flatten,
      List.mem_map.mpr ⟨t, ht, rfl⟩,
      List.mem_flatten.mpr ⟨row.flatten, List.mem_map.mpr ⟨row, hrow, rfl⟩,
        List.mem_flatten.mpr ⟨cell, hc, hp⟩⟩⟩
  have hpp := processParas_absent ft rt doc.paragraphs htop
  unfold replaceKeyInDocument
  rw [hpp]
  have htbl : doc.tables.map (fun t => t.map (fun row =>
      row.map (fun cell => (processParas ft rt cell).1))) = doc.tables := by
    refine map_id_of_mem _ _ fun t ht => ?_
    refine map_id_of_mem _ _ fun row hrow => ?_
    refine map_id_of_mem _ _ fun cell hc => ?_
    rw [processParas_absent ft rt cell (hcell t ht row hrow cell hc)]
  have hcnt : (doc.tables.map (fun t => (t.map (fun row =>
      (row.map (fun cell => (processParas ft rt cell).2)).sum)).sum)).sum = 0 := by
    refine sum_eq_zero_of_mem _ fun a ha => ?_
    obtain ⟨t, ht, rfl⟩ := List.mem_map.mp ha
    refine sum_eq_zero_of_mem _ fun b hb => ?_
    obtain ⟨row, hrow, rfl⟩ := List.mem_map.mp hb
    refine sum_eq_zero_of_mem _ fun c hc => ?_
    obtain ⟨cell, hcm, rfl⟩ := List.mem_map.mp hc
    rw [processParas_absent ft rt cell (hcell t ht row hrow cell hcm)]
  rw [htbl, hcnt]

theorem replace_text_in_document_append (doc : Document)
    (xs ys : List (List Char × List Char)) :
    replace_text_in_document doc (xs ++ ys) =
      ((replace_text_in_document (replace_text_in_document doc xs).1 ys).1,
        (replace_text_in_document doc xs).2 ++
          (replace_text_in_document (replace_text_in_document doc xs).1 ys).2) := by
  induction xs generalizing doc with
  | nil => simp [replace_text_in_document]
  | cons kv rest ih =>
    obtain ⟨ft, rt⟩ := kv
    simp [replace_text_in_document, ih]

/-- Claim C4: a key whose text occurs in no paragraph of the document (at the
time it is processed, `xs` being the earlier entries) produces a zero count —
which is what triggers the script's non-fatal warning print — changes nothing
in the document, and the remaining entries `ys` are still processed exactly
as if the absent key were not in the mapping. -/
theorem absent_key_reports_zero (doc : Document) (k v : List Char)
    (xs ys : List (List Char × List Char))
    (h : ∀ p ∈ allParagraphs (replace_text_in_document doc xs).1,
      listContains k p.text = false) :
    replaceKeyInDocument k (fixMultiline v) (replace_text_in_document doc xs).1 =
      ((replace_text_in_document doc xs).1, 0) ∧
    (replace_text_in_document doc (xs ++ (k, v) :: ys)).1 =
      (replace_text_in_document doc (xs ++ ys)).1 ∧
    (replace_text_in_document doc (xs ++ (k, v) :: ys)).2 =
      (replace_text_in_document doc xs).2 ++ (k, 0) ::
        (replace_text_in_document (replace_text_in_document doc xs).1 ys).2 := by
  have habs := replaceKeyInDocument_absent k (fixMultiline v)
    (replace_text_in_document doc xs).1 h
  refine ⟨habs, ?_, ?_⟩
  · rw [replace_text_in_document_append, replace_text_in_document_append]
    simp [replace_text_in_document, habs]
  · rw [replace_text_in_document_append]
    simp [replace_text_in_document, habs]

/-- Witness for C4: the key `"zz"` occurs nowhere in a one-paragraph,
one-table document; a second key is still processed. -/
theorem absent_key_reports_zero_witness :
    (∀ p ∈ allParagraphs (replace_text_in_document
        ⟨[⟨[⟨['h', 'i'], defaultFmt, none⟩]⟩],
          [[[[⟨[⟨['y', 'o'], defaultFmt, none⟩]⟩]]]]⟩ []).1,
      listContains ['z', 'z'] p.text = false) ∧
    (replaceKeyInDocument ['z', 'z'] (fixMultiline ['w'])
        (replace_text_in_document ⟨[⟨[⟨['h', 'i'], defaultFmt, none⟩]⟩],
          [[[[⟨[⟨['y', 'o'], defaultFmt, none⟩]⟩]]]]⟩ []).1 =
      ((replace_text_in_document ⟨[⟨[⟨['h', 'i'], defaultFmt, none⟩]⟩],
          [[[[⟨[⟨['y', 'o'], defaultFmt, none⟩]⟩]]]]⟩ []).1, 0) ∧
    (replace_text_in_document ⟨[⟨[⟨['h', 'i'], defaultFmt, none⟩]⟩],
        [[[[⟨[⟨['y', 'o'], defaultFmt, none⟩]⟩]]]]⟩
        ([] ++ (['z', 'z'], ['w']) :: [(['h', 'i'], ['o', 'k'])])).1 =
      (replace_text_in_document ⟨[⟨[⟨['h', 'i'], defaultFmt, none⟩]⟩],
        [[[[⟨[⟨['y', 'o'], defaultFmt, none⟩]⟩]]]]⟩
        ([] ++ [(['h', 'i'], ['o', 'k'])])).1 ∧
    (replace_text_in_document ⟨[⟨[⟨['h', 'i'], defaultFmt, none⟩]⟩],
        [[[[⟨[⟨['y', 'o'], defaultFmt, none⟩]⟩]]]]⟩
        ([] ++ (['z', 'z'], ['w']) :: [(['h', 'i'], ['o', 'k'])])).2 =
      (replace_text_in_document ⟨[⟨[⟨['h', 'i'], defaultFmt, none⟩]⟩],
        [[[[⟨[⟨['y', 'o'], defaultFmt, none⟩]⟩]]]]⟩ []).2 ++ (['z', 'z'], 0) ::
        (replace_text_in_document (replace_text_in_document
            ⟨[⟨[⟨['h', 'i'], defaultFmt, none⟩]⟩],
              [[[[⟨[⟨['y', 'o'], defaultFmt, none⟩]⟩]]]]⟩ []).1
          [(['h', 'i'], ['o', 'k'])]).2) :=
  ⟨by decide, absent_key_reports_zero
    ⟨[⟨[⟨['h', 'i'], defaultFmt, none⟩]⟩], [[[[⟨[⟨['y', 'o'], defaultFmt, none⟩]⟩]]]]⟩
    ['z', 'z'] ['w'] [] [(['h', 'i'], ['o', 'k'])] (by decide)⟩

theorem replace_images_in_document_append (ex : String → Bool) (doc : Document)
    (xs ys : List (List Char × String)) (w : Nat) :
    replace_images_in_document ex doc (xs ++ ys) w =
      ((replace_images_in_document ex
          (replace_images_in_document ex doc xs w).1 ys w).1,
        (replace_images_in_document ex doc xs w).2 ++
          (replace_images_in_document ex
            (replace_images_in_document ex doc xs w).1 ys w).2) := by
  induction xs generalizing doc with
  | nil => simp [replace_images_in_document]
  | cons kv rest ih =>
    obtain ⟨ph, path⟩ := kv
    by_cases hex : ex path = true
    · simp [replace_images_in_document, hex, ih]
    · rw [Bool.not_eq_true] at hex
      simp [replace_images_in_document, hex, ih]

/-- Claim C8: an image entry whose path does not exist is skipped — its report
is the warning marker `none`, the document is exactly what the other entries
alone produce, and the entries before and after it are processed normally. -/
theorem missing_image_entry_skipped (ex : String → Bool) (doc : Document)
    (ph : List Char) (path : String) (w : Nat)
    (xs ys : List (List Char × String))
    (hmiss : ex path = false) :
    (replace_images_in_document ex doc (xs ++ (ph, path) :: ys) w).1 =
      (replace_images_in_document ex doc (xs ++ ys) w).1 ∧
    (replace_images_in_document ex doc (xs ++ (ph, path) :: ys) w).2 =
      (replace_images_in_document ex doc xs w).2 ++ (ph, none) ::
        (replace_images_in_document ex
          (replace_images_in_document ex doc xs w).1 ys w).2 := by
  constructor
  · rw [replace_images_in_document_append, replace_images_in_document_append]
    simp [replace_images_in_document, hmiss]
  · rw [replace_images_in_document_append]
    simp [replace_images_in_document, hmiss]

/-- Witness for C8: with no file existing, a missing image entry between two
others is skipped while both neighbours are still processed. -/
theorem missing_image_entry_skipped_witness :
    ((fun _ : String => false) "gone.jpg" = false) ∧
    ((replace_images_in_document (fun _ => false)
        ⟨[⟨[⟨['i', 'm', 'g'], defaultFmt, none⟩]⟩], []⟩
        ([(['a'], "a.jpg")] ++ (['i', 'm', 'g'], "gone.jpg") :: [(['b'], "b.jpg")]) 5).1 =
      (replace_images_in_document (fun _ => false)
        ⟨[⟨[⟨['i', 'm', 'g'], defaultFmt, none⟩]⟩], []⟩
        ([(['a'], "a.jpg")] ++ [(['b'], "b.jpg")]) 5).1 ∧
    (replace_images_in_document (fun _ => false)
        ⟨[⟨[⟨['i', 'm', 'g'], defaultFmt, none⟩]⟩], []⟩
        ([(['a'], "a.jpg")] ++ (['i', 'm', 'g'], "gone.jpg") :: [(['b'], "b.jpg")]) 5).2 =
      (replace_images_in_document (fun _ => false)
        ⟨[⟨[⟨['i', 'm', 'g'], defaultFmt, none⟩]⟩], []⟩ [(['a'], "a.jpg")] 5).2 ++
        (['i', 'm', 'g'], none) ::
        (replace_images_in_document (fun _ => false)
          (replace_images_in_document (fun _ => false)
            ⟨[⟨[⟨['i', 'm', 'g'], defaultFmt, none⟩]⟩], []⟩ [(['a'], "a.jpg")] 5).1
          [(['b'], "b.jpg")] 5).2) :=
  ⟨rfl, missing_image_entry_skipped (fun _ => false)
    ⟨[⟨[⟨['i', 'm', 'g'], defaultFmt, none⟩]⟩], []⟩
    ['i', 'm', 'g'] "gone.jpg" 5 [(['a'], "a.jpg")] [(['b'], "b.jpg")] rfl⟩

/-! ## Lemmas for the batch generator -/

theorem chunkList_flatten {α : Type} (n : Nat) (_hn : 0 < n) (l : List α) :
    (chunkList n l).flatten = l := by
  have H : ∀ m (l : List α), l.length ≤ m → (chunkList n l).flatten = l := by
    intro m
    induction m with
    | zero =>
      intro l hl
      have : l = [] := List.eq_nil_of_length_eq_zero (Nat.le_zero.mp hl)
      subst this
      simp [chunkList]
    | succ m ih =>
      intro l hl
      cases l with
      | nil => simp [chunkList]
      | cons x xs =>
        rw [chunkList, List.flatten_cons, ih (xs.drop (n - 1))
          (by simp only [List.length_drop]; simp at hl; omega)]
        simp [List.take_append_drop]
  exact H l.length l le_rfl

theorem chunkList_bounds {α : Type} (n : Nat) (hn : 0 < n) (l : List α) :
    ∀ c ∈ chunkList n l, 0 < c.length ∧ c.length ≤ n := by
  have H : ∀ m (l : List α), l.length ≤ m →
      ∀ c ∈ chunkList n l, 0 < c.length ∧ c.length ≤ n := by
    intro m
    induction m with
    | zero =>
      intro l hl
      have : l = [] := List.eq_nil_of_length_eq_zero (Nat.le_zero.mp hl)
      subst this
      simp [chunkList]
    | succ m ih =>
      intro l hl c hc
      cases l with
      | nil => simp [chunkList] at hc
      | cons x xs =>
        rw [chunkList] at hc
        rcases List.mem_cons.mp hc with rfl | hc
        · constructor
          · simp
          · simp only [List.length_cons, List.length_take]
            omega
        · exact ih (xs.drop (n - 1))
            (by simp only [List.length_drop]; simp at hl; omega) c hc
  exact H l.length l le_rfl

theorem chunkList_eq_nil_iff {α : Type} (n : Nat) (l : List α) :
    chunkList n l = [] ↔ l = [] := by
  cases l with
  | nil => simp [chunkList]
  | cons x xs => rw [chunkList]; simp

theorem chunkList_full_of_not_last {α : Type} (n : Nat) (hn : 0 < n) (l : List α) :
    ∀ i c, (chunkList n l).get? i = some c →
      i + 1 < (chunkList n l).length → c.length = n := by
  have H : ∀ m (l : List α), l.length ≤ m →
      ∀ i c, (chunkList n l).get? i = some c →
        i + 1 < (chunkList n l).length → c.length = n := by
    intro m
    induction m with
    | zero =>
      intro l hl
      have : l = [] := List.eq_nil_of_length_eq_zero (Nat.le_zero.mp hl)
      subst this
      intro i c hc
      simp [chunkList] at hc
    | succ m ih =>
      intro l hl i c hc hlt
      cases l with
      | nil => simp [chunkList] at hc
      | cons x xs =>
        rw [chunkList] at hc hlt
        cases i with
        | zero =>
          have hc0 : x :: xs.take (n - 1) = c := by
            simpa using hc
          have hrest : chunkList n (xs.drop (n - 1)) ≠ [] := by
            intro hnil
            rw [hnil] at hlt
            simp at hlt
          have hdrop : xs.drop (n - 1) ≠ [] :=
            fun hd => hrest (by rw [hd]; exact (chunkList_eq_nil_iff n []).mpr rfl)
          have hlen : n - 1 < xs.length := by
            by_contra hcon
            exact hdrop (List.drop_eq_nil_of_le (by omega))
          rw [← hc0]
          simp only [List.length_cons, List.length_take]
          omega
        | succ j =>
          have hc' : (chunkList n (xs.drop (n - 1))).get? j = some c := by
            simpa using hc
          refine ih (xs.drop (n - 1))
            (by simp only [List.length_drop]; simp at hl; omega) j c hc' ?_
          simp only [List.length_cons] at hlt
          omega
  exact H l.length l le_rfl

theorem rowTextPairs_mem (cols : List String) (ic : String) (idx : Nat)
    (row : List String) (c v : String) (hcv : (c, v) ∈ cols.zip row)
    (hic : c ≠ ic) (hid : c ≠ "id") :
    (keyFormatDefault c idx, v) ∈ rowTextPairs cols ic idx row := by
  refine List.mem_filterMap.mpr ⟨(c, v), hcv, ?_⟩
  simp [hic, hid]

theorem groupTextDict_mem (cols : List String) (ic : String) :
    ∀ (chunk : List (List String)) (start j : Nat) (row : List String)
      (pair : String × String), chunk.get? j = some row →
      pair ∈ rowTextPairs cols ic (start + j) row →
      pair ∈ groupTextDict cols ic start chunk := by
  intro chunk
  induction chunk with
  | nil => intro start j row pair hj; simp at hj
  | cons r rest ih =>
    intro start j row pair hj hpair
    cases j with
    | zero =>
      have : r = row := by simpa using hj
      subst this
      exact List.mem_append_left _ (by simpa using hpair)
    | succ j =>
      refine List.mem_append_right _ (ih (start + 1) j row pair (by simpa using hj) ?_)
      have : start + 1 + j = start + (j + 1) := by omega
      rw [this]
      exact hpair

theorem groupImageDict_mem (cols : List String) (ic : String) :
    ∀ (chunk : List (List String)) (start j : Nat) (row : List String),
      chunk.get? j = some row → ic ∈ cols →
      (keyFormatDefault ic (start + j), (rowValue cols ic row).getD "") ∈
        groupImageDict cols ic start chunk := by
  intro chunk
  induction chunk with
  | nil => intro start j row hj; simp at hj
  | cons r rest ih =>
    intro start j row hj hic
    cases j with
    | zero =>
      have : r = row := by simpa using hj
      subst this
      exact List.mem_append_left _ (by simp [rowImagePairs, hic])
    | succ j =>
      refine List.mem_append_right _ ?_
      have hrec := ih (start + 1) j row (by simpa using hj) hic
      have : start + 1 + j = start + (j + 1) := by omega
      rwa [this] at hrec

/-- Claim C5: `table_to_dicts` partitions the rows into consecutive groups of
at most `n` rows in input order — every group but possibly the last has
exactly `n` rows, and 33 rows with `n = 30` give exactly the two groups of
30 and 3 rows — and inside a group the row at 0-based index `j` (1-based
position `j + 1`) contributes, under the default key format, one text key per
column other than the image column and `"id"`, and an image key for the image
column. -/
theorem table_to_dicts_grouping (df : DataFrame) (n : Nat) (ic : String)
    (hn : 0 < n) :
    ((chunkList n df.rows).flatten = df.rows) ∧
    (∀ c ∈ chunkList n df.rows, 0 < c.length ∧ c.length ≤ n) ∧
    (∀ i c, (chunkList n df.rows).get? i = some c →
      i + 1 < (chunkList n df.rows).length → c.length = n) ∧
    (table_to_dicts df n ic = (chunkList n df.rows).map (groupDicts df.columns ic)) ∧
    (df.rows.length = 33 → n = 30 →
      (table_to_dicts df n ic).length = 2 ∧
      (chunkList n df.rows).map List.length = [30, 3]) ∧
    (∀ chunk ∈ chunkList n df.rows, ∀ j row, chunk.get? j = some row →
      (∀ c v, (c, v) ∈ df.columns.zip row → c ≠ ic → c ≠ "id" →
        (keyFormatDefault c (j + 1), v) ∈ (groupDicts df.columns ic chunk).1) ∧
      (ic ∈ df.columns →
        (keyFormatDefault ic (j + 1), (rowValue df.columns ic row).getD "") ∈
          (groupDicts df.columns ic chunk).2)) := by
  refine ⟨chunkList_flatten n hn df.rows, chunkList_bounds n hn df.rows,
    chunkList_full_of_not_last n hn df.rows, rfl, ?_, ?_⟩
  · rintro h33 rfl
    have hmap : (chunkList 30 df.rows).map List.length = [30, 3] := by
      cases hrows : df.rows with
      | nil => rw [hrows] at h33; simp at h33
      | cons x xs =>
        rw [hrows] at h33
        simp only [List.length_cons] at h33
        have hxs : xs.length = 32 := by omega
        rw [chunkList]
        have hd : (xs.drop 29).length = 3 := by
          simp only [List.length_drop]
          omega
        cases hdrop : xs.drop 29 with
        | nil => rw [hdrop] at hd; simp at hd
        | cons y ys =>
          rw [hdrop] at hd
          simp only [List.length_cons] at hd
          have hys : ys.length = 2 := by omega
          rw [chunkList]
          have hty : ys.take 29 = ys := List.take_of_length_le (by omega)
          have hdy : ys.drop 29 = [] := List.drop_eq_nil_of_le (by omega)
          rw [hty, hdy]
          rw [(chunkList_eq_nil_iff 30 ([] : List (List String))).mpr rfl]
          simp only [List.map_cons, List.map_nil, List.length_cons, List.length_take]
          rw [hxs, hys]
          norm_num
    refine ⟨?_, hmap⟩
    have : (table_to_dicts df 30 ic).length = (chunkList 30 df.rows).length := by
      simp [table_to_dicts]
    rw [this, ← List.length_map (chunkList 30 df.rows) List.length, hmap]
    rfl
  · intro chunk _ j row hj
    constructor
    · intro c v hcv hic hid
      have := groupTextDict_mem df.columns ic chunk 1 j row
        (keyFormatDefault c (j + 1), v) hj
        (by rw [Nat.add_comm 1 j]; exact rowTextPairs_mem df.columns ic (j + 1) row c v hcv hic hid)
      exact this
    · intro hic
      have := groupImageDict_mem df.columns ic chunk 1 j row hj hic
      rwa [Nat.add_comm 1 j] at this

/-- Witness for C5 at a concrete 33-row dataset with columns
`["Name", "Image", "id"]`, image column `"Image"` and group size 30. -/
theorem table_to_dicts_grouping_witness :
    (0 < 30) ∧
    (((chunkList 30 (DataFrame.mk ["Name", "Image", "id"]
        (List.replicate 33 ["ann", "a.jpg", "7"])).rows).flatten =
      (DataFrame.mk ["Name", "Image", "id"]
        (List.replicate 33 ["ann", "a.jpg", "7"])).rows) ∧
    (∀ c ∈ chunkList 30 (DataFrame.mk ["Name", "Image", "id"]
        (List.replicate 33 ["ann", "a.jpg", "7"])).rows, 0 < c.length ∧ c.length ≤ 30) ∧
    (∀ i c, (chunkList 30 (DataFrame.mk ["Name", "Image", "id"]
        (List.replicate 33 ["ann", "a.jpg", "7"])).rows).get? i = some c →
      i + 1 < (chunkList 30 (DataFrame.mk ["Name", "Image", "id"]
        (List.replicate 33 ["ann", "a.jpg", "7"])).rows).length → c.length = 30) ∧
    (table_to_dicts (DataFrame.mk ["Name", "Image", "id"]
        (List.replicate 33 ["ann", "a.jpg", "7"])) 30 "Image" =
      (chunkList 30 (DataFrame.mk ["Name", "Image", "id"]
        (List.replicate 33 ["ann", "a.jpg", "7"])).rows).map
        (groupDicts ["Name", "Image", "id"] "Image")) ∧
    ((DataFrame.mk ["Name", "Image", "id"]
        (List.replicate 33 ["ann", "a.jpg", "7"])).rows.length = 33 → 30 = 30 →
      (table_to_dicts (DataFrame.mk ["Name", "Image", "id"]
        (List.replicate 33 ["ann", "a.jpg", "7"])) 30 "Image").length = 2 ∧
      (chunkList 30 (DataFrame.mk ["Name", "Image", "id"]
        (List.replicate 33 ["ann", "a.jpg", "7"])).rows).map List.length = [30, 3]) ∧
    (∀ chunk ∈ chunkList 30 (DataFrame.mk ["Name", "Image", "id"]
        (List.replicate 33 ["ann", "a.jpg", "7"])).rows,
      ∀ j row, chunk.get? j = some row →
      (∀ c v, (c, v) ∈ ["Name", "Image", "id"].zip row → c ≠ "Image" → c ≠ "id" →
        (keyFormatDefault c (j + 1), v) ∈
          (groupDicts ["Name", "Image", "id"] "Image" chunk).1) ∧
      ("Image" ∈ ["Name", "Image", "id"] →
        (keyFormatDefault "Image" (j + 1),
          (rowValue ["Name", "Image", "id"] "Image" row).getD "") ∈
          (groupDicts ["Name", "Image", "id"] "Image" chunk).2))) :=
  ⟨by decide, table_to_dicts_grouping
    (DataFrame.mk ["Name", "Image", "id"] (List.replicate 33 ["ann", "a.jpg", "7"]))
    30 "Image" (by decide)⟩

/-! ## Lemmas for the bulk dummy-image replacement -/

theorem dropImgs_nil (j : Nat) : dropImgs j [] = [] := by
  cases j <;> rfl

theorem dropImgs_zero (rs : List XRun) : dropImgs 0 rs = rs := by
  cases rs <;> rfl

theorem processXRuns_noPool (dir : String) (pool : List String) (runs : List XRun)
    (cnt : Nat) (h : pool.length ≤ cnt) :
    processXRuns dir pool runs cnt = ⟨runs, [], [], cnt⟩ := by
  induction runs with
  | nil => rfl
  | cons r rs ih =>
    have hlt : ¬ cnt < pool.length := by omega
    simp [processXRuns, hlt, ih]

theorem processXRuns_cnt (dir : String) (pool : List String) :
    ∀ (runs : List XRun) (cnt : Nat), cnt ≤ pool.length →
      (processXRuns dir pool runs cnt).cnt = min (cnt + countImgs runs) pool.length := by
  intro runs
  induction runs with
  | nil =>
    intro cnt h
    simp only [processXRuns, countImgs, List.countP_nil]
    omega
  | cons r rs ih =>
    intro cnt h
    by_cases himg : r.image = true
    · by_cases hlt : cnt < pool.length
      · have hone : countImgs (r :: rs) = countImgs rs + 1 := by
          simp [countImgs, List.countP_cons, himg]
        simp only [processXRuns, himg, hlt, and_self, if_true, true_and, if_pos]
        rw [ih (cnt + 1) (by omega), hone]
        omega
      · have hcnt : cnt = pool.length := by omega
        rw [processXRuns_noPool dir pool (r :: rs) cnt (by omega)]
        show cnt = min (cnt + countImgs (r :: rs)) pool.length
        omega
    · have himg' : r.image = false := by simpa using himg
      have hone : countImgs (r :: rs) = countImgs rs := by
        simp [countImgs, List.countP_cons, himg']
      simp only [processXRuns, himg', Bool.false_eq_true, false_and, if_false]
      rw [ih cnt h, hone]

theorem processXRuns_kept (dir : String) (pool : List String) :
    ∀ (runs : List XRun) (cnt : Nat), cnt ≤ pool.length →
      (processXRuns dir pool runs cnt).kept = dropImgs (pool.length - cnt) runs := by
  intro runs
  induction runs with
  | nil =>
    intro cnt h
    rw [dropImgs_nil]
    rfl
  | cons r rs ih =>
    intro cnt h
    by_cases himg : r.image = true
    · by_cases hlt : cnt < pool.length
      · have hrw : pool.length - cnt = (pool.length - (cnt + 1)) + 1 := by omega
        rw [hrw]
        simp only [processXRuns, himg, hlt, and_self, if_true]
        rw [ih (cnt + 1) (by omega)]
        simp [dropImgs, himg]
      · have h0 : pool.length - cnt = 0 := by omega
        rw [h0, dropImgs_zero, processXRuns_noPool dir pool (r :: rs) cnt (by omega)]
    · have himg' : r.image = false := by simpa using himg
      simp only [processXRuns, himg', Bool.false_eq_true, false_and, if_false]
      cases h0 : pool.length - cnt with
      | zero =>
        rw [ih cnt h, h0, dropImgs_zero, dropImgs_zero]
      | succ j =>
        rw [ih cnt h, h0]
        simp [dropImgs, himg']

theorem drop_eq_getD_cons (l : List String) :
    ∀ (n : Nat), n < l.length → l.drop n = l.getD n "" :: l.drop (n + 1) := by
  induction l with
  | nil => intro n h; simp at h
  | cons a t ih =>
    intro n h
    cases n with
    | zero => rfl
    | succ m =>
      simp only [List.drop_succ_cons, List.getD_cons_succ]
      exact ih m (by simpa using h)

theorem processXRuns_app (dir : String) (pool : List String) :
    ∀ (runs : List XRun) (cnt : Nat), cnt ≤ pool.length →
      (processXRuns dir pool runs cnt).app.map (fun r => r.file) =
        ((pool.drop cnt).take (countImgs runs)).map (fun f => some (joinPath dir f)) := by
  intro runs
  induction runs with
  | nil =>
    intro cnt h
    simp [processXRuns, countImgs]
  | cons r rs ih =>
    intro cnt h
    by_cases himg : r.image = true
    · by_cases hlt : cnt < pool.length
      · rw [drop_eq_getD_cons pool cnt hlt]
        simp only [processXRuns, himg, hlt, and_self, if_true, countImgs,
          List.countP_cons, himg, if_pos rfl]
        simp only [List.map_cons, List.take_succ_cons]
        rw [ih (cnt + 1) (by omega)]
        simp [dummyXRun, countImgs]
      · have hcnt : cnt = pool.length := by omega
        rw [processXRuns_noPool dir pool (r :: rs) cnt (by omega), hcnt,
          List.drop_length]
        simp
    · have himg' : r.image = false := by simpa using himg
      simp only [processXRuns, himg', Bool.false_eq_true, false_and, if_false]
      rw [ih cnt h]
      simp [countImgs, List.countP_cons, himg']

theorem mkLogs_self (dir : String) (pool : List String) (a : Nat) :
    mkLogs dir pool a a = [] := by
  simp [mkLogs]

theorem processXRuns_logs (dir : String) (pool : List String) :
    ∀ (runs : List XRun) (cnt : Nat), cnt ≤ pool.length →
      (processXRuns dir pool runs cnt).logs =
        mkLogs dir pool cnt ((processXRuns dir pool runs cnt).cnt) := by
  intro runs
  induction runs with
  | nil =>
    intro cnt h
    rw [show (processXRuns dir pool [] cnt) = ⟨[], [], [], cnt⟩ from rfl, mkLogs_self]
  | cons r rs ih =>
    intro cnt h
    by_cases himg : r.image = true
    · by_cases hlt : cnt < pool.length
      · have hge : cnt + 1 ≤ (processXRuns dir pool rs (cnt + 1)).cnt := by
          rw [processXRuns_cnt dir pool rs (cnt + 1) (by omega)]
          omega
        simp only [processXRuns, himg, hlt, and_self, if_true]
        rw [ih (cnt + 1) (by omega)]
        have hrw : (processXRuns dir pool rs (cnt + 1)).cnt - cnt =
            ((processXRuns dir pool rs (cnt + 1)).cnt - (cnt + 1)) + 1 := by omega
        simp only [mkLogs, hrw, List.range'_succ, List.map_cons]
        simp
      · simp only [processXRuns, himg, hlt, and_false, if_false]
        rw [processXRuns_noPool dir pool rs cnt (by omega)]
        rw [mkLogs_self]
    · have himg' : r.image = false := by simpa using himg
      simp only [processXRuns, himg', Bool.false_eq_true, false_and, if_false]
      exact ih cnt h

theorem mkLogs_append (dir : String) (pool : List String) (a b c : Nat)
    (h1 : a ≤ b) (h2 : b ≤ c) :
    mkLogs dir pool a b ++ mkLogs dir pool b c = mkLogs dir pool a c := by
  unfold mkLogs
  rw [← List.map_append]
  congr 1
  have := List.range'_append_1 a (b - a) (c - b)
  rw [show a + (b - a) = b from by omega] at this
  rw [this]
  congr 1
  omega

theorem threadMap_cnt_logs {α β : Type} (dir : String) (pool : List String)
    (f : α → Nat → β × List (Nat × String × String) × Nat) (g : α → Nat)
    (hf : ∀ x cnt, cnt ≤ pool.length →
      (f x cnt).2.2 = min (cnt + g x) pool.length ∧
      (f x cnt).2.1 = mkLogs dir pool cnt ((f x cnt).2.2)) :
    ∀ (xs : List α) (cnt : Nat), cnt ≤ pool.length →
      (threadMap f xs cnt).2.2 = min (cnt + (xs.map g).sum) pool.length ∧
      (threadMap f xs cnt).2.1 =
        mkLogs dir pool cnt ((threadMap f xs cnt).2.2) := by
  intro xs
  induction xs with
  | nil =>
    intro cnt h
    constructor
    · simp only [threadMap, List.map_nil, List.sum_nil]
      omega
    · simp [threadMap, mkLogs_self]
  | cons x rest ih =>
    intro cnt h
    obtain ⟨hc1, hl1⟩ := hf x cnt h
    have hle1 : (f x cnt).2.2 ≤ pool.length := by omega
    have hge1 : cnt ≤ (f x cnt).2.2 := by omega
    obtain ⟨hc2, hl2⟩ := ih ((f x cnt).2.2) hle1
    have hge2 : (f x cnt).2.2 ≤ (threadMap f rest ((f x cnt).2.2)).2.2 := by
      rw [hc2]
      omega
    constructor
    · simp only [threadMap, List.map_cons, List.sum_cons]
      rw [hc2, hc1]
      omega
    · simp only [threadMap]
      rw [hl1, hl2, hc2]
      rw [← hc2, mkLogs_append dir pool cnt ((f x cnt).2.2)
        ((threadMap f rest ((f x cnt).2.2)).2.2) hge1 hge2]

theorem processXPara_cnt_logs (dir : String) (pool : List String) :
    ∀ (runs : List XRun) (cnt : Nat), cnt ≤ pool.length →
      (processXPara dir pool runs cnt).2.2 =
        min (cnt + countImgs runs) pool.length ∧
      (processXPara dir pool runs cnt).2.1 =
        mkLogs dir pool cnt ((processXPara dir pool runs cnt).2.2) := fun runs cnt h =>
  ⟨processXRuns_cnt dir pool runs cnt h, processXRuns_logs dir pool runs cnt h⟩

theorem getD_append_at (pre : List String) (a : String) (t : List String) :
    (pre ++ a :: t).getD pre.length "" = a := by
  induction pre with
  | nil => rfl
  | cons p ps ih => simpa using ih

theorem range'_map_getD (l : List String) :
    ∀ pre : List String,
      (List.range' pre.length l.length).map (fun j => (pre ++ l).getD j "") = l := by
  induction l with
  | nil => intro pre; simp
  | cons a t ih =>
    intro pre
    simp only [List.length_cons, List.range'_succ, List.map_cons]
    rw [getD_append_at pre a t]
    congr 1
    have h1 : pre.length + 1 = (pre ++ [a]).length := by simp
    have h2 : pre ++ a :: t = (pre ++ [a]) ++ t := by simp
    rw [h1, h2]
    exact ih (pre ++ [a])

/-- Claim C6: with a non-empty replacement pool no larger than the number of
embedded images, the bulk replacement consumes exactly the whole pool — count
`pool.length`, success `true`, and the files used are the pool in order —
while at the run level the kept runs are the original list with only the
first pool-worth of image runs removed, the appended dummies carry the next
unused pool files in order, and once the pool is exhausted a run list passes
through completely untouched. -/
theorem bulk_replacement_pool_exhausted (dir : String) (pool : List String)
    (doc : XDoc) (hne : pool ≠ []) (hk : pool.length ≤ docImgCount doc) :
    (replace_all_images_with_dummies dir pool doc).count = pool.length ∧
    (replace_all_images_with_dummies dir pool doc).success = true ∧
    (replace_all_images_with_dummies dir pool doc).logs.map (fun e => e.2.2) = pool ∧
    (∀ (runs : List XRun) (cnt : Nat), cnt ≤ pool.length →
      (processXRuns dir pool runs cnt).kept = dropImgs (pool.length - cnt) runs ∧
      (processXRuns dir pool runs cnt).app.map (fun r => r.file) =
        ((pool.drop cnt).take (countImgs runs)).map (fun f => some (joinPath dir f)) ∧
      (pool.length ≤ cnt → processXRuns dir pool runs cnt = ⟨runs, [], [], cnt⟩)) := by
  have hempty : pool.isEmpty = false := by
    simpa [List.isEmpty_iff] using hne
  have hLpos : 0 < pool.length := List.length_pos.mpr hne
  have h2 := threadMap_cnt_logs dir pool (processXPara dir pool) countImgs
    (processXPara_cnt_logs dir pool)
  have h3 := threadMap_cnt_logs dir pool (threadMap (processXPara dir pool))
    (fun cell => (cell.map countImgs).sum) h2
  have h4 := threadMap_cnt_logs dir pool
    (threadMap (threadMap (processXPara dir pool)))
    (fun row => (row.map (fun cell => (cell.map countImgs).sum)).sum) h3
  have h5 := threadMap_cnt_logs dir pool
    (threadMap (threadMap (threadMap (processXPara dir pool))))
    (fun t => (t.map (fun row =>
      (row.map (fun cell => (cell.map countImgs).sum)).sum)).sum) h4
  obtain ⟨hcP, hlP⟩ := h2 doc.paragraphs 0 (Nat.zero_le _)
  have hPle : (threadMap (processXPara dir pool) doc.paragraphs 0).2.2 ≤ pool.length := by
    rw [hcP]
    omega
  obtain ⟨hcT, hlT⟩ := h5 doc.tables _ hPle
  have hsum : docImgCount doc = (doc.paragraphs.map countImgs).sum +
      (doc.tables.map (fun t => (t.map (fun row =>
        (row.map (fun cell => (cell.map countImgs).sum)).sum)).sum)).sum := rfl
  have hcount : (replace_all_images_with_dummies dir pool doc).count = pool.length := by
    simp only [replace_all_images_with_dummies, hempty, Bool.false_eq_true, if_false]
    rw [hcT, hcP]
    rw [hsum] at hk
    omega
  refine ⟨hcount, ?_, ?_, ?_⟩
  · simp only [replace_all_images_with_dummies, hempty, Bool.false_eq_true,
      if_false] at hcount ⊢
    rw [hcount]
    simpa using hLpos
  · simp only [replace_all_images_with_dummies, hempty, Bool.false_eq_true,
      if_false] at hcount ⊢
    have hge2 : (threadMap (processXPara dir pool) doc.paragraphs 0).2.2 ≤
        (threadMap (threadMap (threadMap (threadMap (processXPara dir pool))))
          doc.tables (threadMap (processXPara dir pool) doc.paragraphs 0).2.2).2.2 := by
      rw [hcT]
      omega
    rw [hlP, hlT, hcP]
    rw [← hcP, mkLogs_append dir pool 0 _ _ (Nat.zero_le _) hge2, hcount]
    unfold mkLogs
    rw [List.map_map, Nat.sub_zero]
    have := range'_map_getD pool []
    simpa using this
  · intro runs cnt h
    exact ⟨processXRuns_kept dir pool runs cnt h,
      processXRuns_app dir pool runs cnt h,
      fun hge => processXRuns_noPool dir pool runs cnt hge⟩

/-- Witness for C6: five embedded images (three in top-level paragraphs, two
in table cells) against a three-file pool. -/
theorem bulk_replacement_pool_exhausted_witness :
    ((["d1.jpg", "d2.jpg", "d3.jpg"] : List String) ≠ []) ∧
    ((["d1.jpg", "d2.jpg", "d3.jpg"] : List String).length ≤ docImgCount
      ⟨[[⟨[], true, none, 0⟩], [⟨[], true, none, 0⟩], [⟨[], true, none, 0⟩]],
        [[[[[⟨[], true, none, 0⟩]], [[⟨[], true, none, 0⟩]]]]]⟩) ∧
    ((replace_all_images_with_dummies "dummy_images" ["d1.jpg", "d2.jpg", "d3.jpg"]
        ⟨[[⟨[], true, none, 0⟩], [⟨[], true, none, 0⟩], [⟨[], true, none, 0⟩]],
          [[[[[⟨[], true, none, 0⟩]], [[⟨[], true, none, 0⟩]]]]]⟩).count =
      (["d1.jpg", "d2.jpg", "d3.jpg"] : List String).length ∧
    (replace_all_images_with_dummies "dummy_images" ["d1.jpg", "d2.jpg", "d3.jpg"]
        ⟨[[⟨[], true, none, 0⟩], [⟨[], true, none, 0⟩], [⟨[], true, none, 0⟩]],
          [[[[[⟨[], true, none, 0⟩]], [[⟨[], true, none, 0⟩]]]]]⟩).success = true ∧
    (replace_all_images_with_dummies "dummy_images" ["d1.jpg", "d2.jpg", "d3.jpg"]
        ⟨[[⟨[], true, none, 0⟩], [⟨[], true, none, 0⟩], [⟨[], true, none, 0⟩]],
          [[[[[⟨[], true, none, 0⟩]], [[⟨[], true, none, 0⟩]]]]]⟩).logs.map
        (fun e => e.2.2) = ["d1.jpg", "d2.jpg", "d3.jpg"] ∧
    (∀ (runs : List XRun) (cnt : Nat),
      cnt ≤ (["d1.jpg", "d2.jpg", "d3.jpg"] : List String).length →
      (processXRuns "dummy_images" ["d1.jpg", "d2.jpg", "d3.jpg"] runs cnt).kept =
        dropImgs ((["d1.jpg", "d2.jpg", "d3.jpg"] : List String).length - cnt) runs ∧
      (processXRuns "dummy_images" ["d1.jpg", "d2.jpg", "d3.jpg"] runs cnt).app.map
          (fun r => r.file) =
        (((["d1.jpg", "d2.jpg", "d3.jpg"] : List String).drop cnt).take
          (countImgs runs)).map (fun f => some (joinPath "dummy_images" f)) ∧
      ((["d1.jpg", "d2.jpg", "d3.jpg"] : List String).length ≤ cnt →
        processXRuns "dummy_images" ["d1.jpg", "d2.jpg", "d3.jpg"] runs cnt =
          ⟨runs, [], [], cnt⟩))) :=
  ⟨by decide, by decide, bulk_replacement_pool_exhausted "dummy_images"
    ["d1.jpg", "d2.jpg", "d3.jpg"]
    ⟨[[⟨[], true, none, 0⟩], [⟨[], true, none, 0⟩], [⟨[], true, none, 0⟩]],
      [[[[[⟨[], true, none, 0⟩]], [[⟨[], true, none, 0⟩]]]]]⟩
    (by decide) (by decide)⟩

/-- Counterexample to claim C9 as stated: with pool
`["dummy_01.jpg", "dummy_02.jpg"]` and a single embedded image, the printed
message names `dummy_01.jpg` — the file actually inserted — and not
`dummy_02.jpg`, the next file in the pool, so the message does not report
the wrong file. -/
theorem bulk_log_counterexample :
    (replace_all_images_with_dummies "dummy_images" ["dummy_01.jpg", "dummy_02.jpg"]
        ⟨[[⟨[], true, none, 0⟩]], []⟩).logs =
      [(1, "dummy_images/dummy_01.jpg", "dummy_01.jpg")] ∧
    ("dummy_01.jpg" : String) ≠ "dummy_02.jpg" := by
  constructor
  · decide
  · decide

/-- Claim C9, amended: the progress message reports the file actually used.
`image_count` is incremented before the message is formatted, but the message
indexes the pool at `image_count - 1`, which is exactly the file just
consumed: every log entry `(i, used, printed)` satisfies
`used = dir/printed` and `printed = pool[i - 1]`, the file of the `i`-th
replacement. -/
theorem bulk_log_reports_used_file (dir : String) (pool : List String)
    (doc : XDoc) :
    ∀ e ∈ (replace_all_images_with_dummies dir pool doc).logs,
      e.2.1 = joinPath dir e.2.2 ∧ e.2.2 = pool.getD (e.1 - 1) "" := by
  intro e he
  by_cases hempty : pool.isEmpty = true
  · simp [replace_all_images_with_dummies, hempty] at he
  · have hempty' : pool.isEmpty = false := by simpa using hempty
    have h2 := threadMap_cnt_logs dir pool (processXPara dir pool) countImgs
      (processXPara_cnt_logs dir pool)
    have h3 := threadMap_cnt_logs dir pool (threadMap (processXPara dir pool))
      (fun cell => (cell.map countImgs).sum) h2
    have h4 := threadMap_cnt_logs dir pool
      (threadMap (threadMap (processXPara dir pool)))
      (fun row => (row.map (fun cell => (cell.map countImgs).sum)).sum) h3
    have h5 := threadMap_cnt_logs dir pool
      (threadMap (threadMap (threadMap (processXPara dir pool))))
      (fun t => (t.map (fun row =>
        (row.map (fun cell => (cell.map countImgs).sum)).sum)).sum) h4
    obtain ⟨hcP, hlP⟩ := h2 doc.paragraphs 0 (Nat.zero_le _)
    have hPle : (threadMap (processXPara dir pool) doc.paragraphs 0).2.2 ≤
        pool.length := by
      rw [hcP]
      omega
    obtain ⟨hcT, hlT⟩ := h5 doc.tables _ hPle
    have hge2 : (threadMap (processXPara dir pool) doc.paragraphs 0).2.2 ≤
        (threadMap (threadMap (threadMap (threadMap (processXPara dir pool))))
          doc.tables (threadMap (processXPara dir pool) doc.paragraphs 0).2.2).2.2 := by
      rw [hcT]
      omega
    simp only [replace_all_images_with_dummies, hempty', Bool.false_eq_true,
      if_false, List.mem_append] at he
    rw [hlP, hlT] at he
    rw [← List.mem_append, mkLogs_append dir pool 0 _ _ (Nat.zero_le _) hge2] at he
    unfold mkLogs at he
    obtain ⟨j, _, rfl⟩ := List.mem_map.mp he
    exact ⟨rfl, by simp⟩

/-- Witness for the amended C9 at a two-image document and a two-file pool:
the second log entry prints counter 2 and names `dummy_02.jpg`, the file it
actually inserted (`pool[2 - 1]`). -/
theorem bulk_log_reports_used_file_witness :
    ((2, "dummy_images/dummy_02.jpg", "dummy_02.jpg") ∈
      (replace_all_images_with_dummies "dummy_images"
        ["dummy_01.jpg", "dummy_02.jpg"]
        ⟨[[⟨[], true, none, 0⟩], [⟨[], true, none, 0⟩]], []⟩).logs) ∧
    (("dummy_images/dummy_02.jpg" : String) =
        joinPath "dummy_images" "dummy_02.jpg" ∧
      ("dummy_02.jpg" : String) =
        (["dummy_01.jpg", "dummy_02.jpg"] : List String).getD (2 - 1) "") :=
  ⟨by decide, bulk_log_reports_used_file "dummy_images"
    ["dummy_01.jpg", "dummy_02.jpg"]
    ⟨[[⟨[], true, none, 0⟩], [⟨[], true, none, 0⟩]], []⟩
    (2, "dummy_images/dummy_02.jpg", "dummy_02.jpg") (by decide)⟩

/-! ## Lemmas for the multiline cell replacement -/

theorem splitOnChar_no_sep (sep : Char) (l : List Char) (h : sep ∉ l) :
    splitOnChar sep l = [l] := by
  induction l with
  | nil => rfl
  | cons c rest ih =>
    have hc : ¬ c = sep := fun hcs => h (hcs ▸ List.mem_cons_self c rest)
    have hrest : sep ∉ rest := fun hm => h (List.mem_cons_of_mem c hm)
    simp only [splitOnChar, if_neg hc, ih hrest]

theorem splitOnChar_append (sep : Char) (A rest : List Char) (hA : sep ∉ A) :
    splitOnChar sep (A ++ sep :: rest) = A :: splitOnChar sep rest := by
  induction A with
  | nil => simp [splitOnChar]
  | cons a A2 ih =>
    have ha : ¬ a = sep := fun has => hA (has ▸ List.mem_cons_self a A2)
    have hA2 : sep ∉ A2 := fun hm => hA (List.mem_cons_of_mem a hm)
    simp only [List.cons_append, splitOnChar, if_neg ha, List.append_eq, ih hA2]

theorem map_ite_false {α β : Type} (c : α → Bool) (f g : α → β) (l : List α)
    (h : ∀ a ∈ l, c a = false) :
    (l.map fun a => if c a then f a else g a) = l.map g :=
  List.map_congr_left fun a ha => by rw [h a ha]; simp

theorem flatten_map_nil {α β : Type} (l : List α) :
    (l.map (fun _ => ([] : List β))).flatten = [] := by
  induction l with
  | nil => rfl
  | cons a as ih => simp [ih]

theorem sum_map_zero {α : Type} (l : List α) : (l.map (fun _ => 0)).sum = 0 := by
  induction l with
  | nil => rfl
  | cons a as ih => simp [ih]

theorem replaceInRuns_isSome (ft rt : List Char) (runs : List Run)
    (h : ∃ q ∈ runs, listContains ft q.text = true) :
    ∃ l, replaceInRuns ft rt runs = some l := by
  induction runs with
  | nil => simp at h
  | cons r rs ih =>
    by_cases hc : listContains ft r.text = true
    · exact ⟨{ r with text := pyReplace r.text ft rt, image := none } :: rs,
        by simp [replaceInRuns, hc]⟩
    · obtain ⟨q, hq, hqc⟩ := h
      rcases List.mem_cons.mp hq with rfl | hq2
      · exact absurd hqc hc
      · obtain ⟨l, hl⟩ := ih ⟨q, hq2, hqc⟩
        refine ⟨r :: l, ?_⟩
        rw [Bool.not_eq_true] at hc
        simp [replaceInRuns, hc, hl]

theorem replaceInRuns_head_fmt (ft rt : List Char) (r : Run) (rs : List Run)
    (l : List Run) (h : replaceInRuns ft rt (r :: rs) = some l) :
    ∃ r2 t, l = r2 :: t ∧ r2.fmt = r.fmt := by
  by_cases hc : listContains ft r.text = true
  · have heq : replaceInRuns ft rt (r :: rs) =
        some ({ r with text := pyReplace r.text ft rt, image := none } :: rs) := by
      simp [replaceInRuns, hc]
    rw [heq] at h
    injection h with h2
    exact ⟨{ r with text := pyReplace r.text ft rt, image := none }, rs, h2.symm, rfl⟩
  · rw [Bool.not_eq_true] at hc
    cases hrec : replaceInRuns ft rt rs with
    | none => simp [replaceInRuns, hc, hrec] at h
    | some l2 =>
      have heq : replaceInRuns ft rt (r :: rs) = some (r :: l2) := by
        simp [replaceInRuns, hc, hrec]
      rw [heq] at h
      injection h with h2
      exact ⟨r, l2, h2.symm, rfl⟩

/-- Claim C7: applying the multi-line value `A\nB\nC` (no embedded newlines in
the pieces, `B` and `C` not blank) to a cell whose paragraph `p` contains the
placeholder — and no other paragraph does — rewrites `p` with the first line
`A` and appends two paragraphs holding `B` and `C` at the end of the cell,
each carrying a single run formatted by the best-effort copy (`copyFmtML`)
from the rewritten paragraph's runs; and whenever the placeholder sat inside
some run of `p`, that copy reproduces the original first run's font name,
size, bold and italic attributes. -/
theorem multiline_cell_replacement (ph A B C : List Char)
    (pre post : List Paragraph) (p : Paragraph)
    (hA : '\n' ∉ A) (hB : '\n' ∉ B) (hC : '\n' ∉ C)
    (hBne : isBlankLine B = false) (hCne : isBlankLine C = false)
    (hp : listContains ph p.text = true)
    (hothers : ∀ q ∈ pre ++ post, listContains ph q.text = false) :
    replaceTextPlaceholderInCell ph (A ++ '\n' :: (B ++ '\n' :: C))
        (pre ++ p :: post) =
      (pre ++ transformParaML ph A p :: post ++
        [⟨[⟨B, copyFmtML (transformParaML ph A p).runs, none⟩]⟩,
         ⟨[⟨C, copyFmtML (transformParaML ph A p).runs, none⟩]⟩], 1) ∧
    (∀ r rs, p.runs = r :: rs → (∃ q ∈ p.runs, listContains ph q.text = true) →
      (copyFmtML (transformParaML ph A p).runs).fontName = r.fmt.fontName ∧
      (copyFmtML (transformParaML ph A p).runs).fontSize = r.fmt.fontSize ∧
      (copyFmtML (transformParaML ph A p).runs).bold = r.fmt.bold ∧
      (copyFmtML (transformParaML ph A p).runs).italic = r.fmt.italic) := by
  have hprem : ∀ q ∈ pre, listContains ph q.text = false := fun q hq =>
    hothers q (List.mem_append_left _ hq)
  have hpostm : ∀ q ∈ post, listContains ph q.text = false := fun q hq =>
    hothers q (List.mem_append_right _ hq)
  have hlines : splitOnChar '\n' (A ++ '\n' :: (B ++ '\n' :: C)) = [A, B, C] := by
    rw [splitOnChar_append '\n' A (B ++ '\n' :: C) hA,
      splitOnChar_append '\n' B C hB, splitOnChar_no_sep '\n' C hC]
  constructor
  · unfold replaceTextPlaceholderInCell
    rw [hlines]
    simp only [List.headD_cons, List.drop_succ_cons, List.drop_zero, List.filter_cons,
      hBne, hCne, Bool.not_false, if_true, List.filter_nil]
    rw [List.map_append, List.map_cons,
      map_ite_false (fun q => listContains ph q.text) _ _ pre hprem,
      map_ite_false (fun q => listContains ph q.text) _ _ post hpostm,
      if_pos hp]
    simp only [List.map_append, List.map_cons, List.map_map, List.map_nil,
      List.flatten_append, List.flatten_cons, List.sum_append, List.sum_cons]
    refine Prod.ext ?_ ?_ <;>
      simp [Function.comp_def, flatten_map_nil, sum_map_zero, List.append_assoc]
  · intro r rs hruns hmatch
    obtain ⟨l, hl⟩ := replaceInRuns_isSome ph A p.runs hmatch
    rw [hruns] at hl
    obtain ⟨r2, t, rfl, hfmt⟩ := replaceInRuns_head_fmt ph A r rs l hl
    have htr : transformParaML ph A p = ⟨r2 :: t⟩ := by
      unfold transformParaML
      rw [hruns, hl]
    rw [htr]
    simp [copyFmtML, hfmt]

/-- Witness for C7: the value `"A\nB\nC"` applied to a one-run cell paragraph
whose run carries a full formatting descriptor. -/
theorem multiline_cell_replacement_witness :
    ('\n' ∉ ['A']) ∧ ('\n' ∉ ['B']) ∧ ('\n' ∉ ['C']) ∧
    (isBlankLine ['B'] = false) ∧ (isBlankLine ['C'] = false) ∧
    (listContains ['X'] (Paragraph.text ⟨[⟨['a', 'X', 'b'],
      ⟨some true, some false, none, some "F", some 7, some (1, 2, 3)⟩, none⟩]⟩) = true) ∧
    (∀ q ∈ ([] : List Paragraph) ++ ([] : List Paragraph),
      listContains ['X'] q.text = false) ∧
    ((replaceTextPlaceholderInCell ['X'] (['A'] ++ '\n' :: (['B'] ++ '\n' :: ['C']))
        (([] : List Paragraph) ++ ⟨[⟨['a', 'X', 'b'],
          ⟨some true, some false, none, some "F", some 7, some (1, 2, 3)⟩, none⟩]⟩ ::
          ([] : List Paragraph)) =
      ([] ++ transformParaML ['X'] ['A'] ⟨[⟨['a', 'X', 'b'],
          ⟨some true, some false, none, some "F", some 7, some (1, 2, 3)⟩, none⟩]⟩ ::
        ([] : List Paragraph) ++
        [⟨[⟨['B'], copyFmtML (transformParaML ['X'] ['A'] ⟨[⟨['a', 'X', 'b'],
          ⟨some true, some false, none, some "F", some 7, some (1, 2, 3)⟩, none⟩]⟩).runs,
          none⟩]⟩,
         ⟨[⟨['C'], copyFmtML (transformParaML ['X'] ['A'] ⟨[⟨['a', 'X', 'b'],
          ⟨some true, some false, none, some "F", some 7, some (1, 2, 3)⟩, none⟩]⟩).runs,
          none⟩]⟩], 1)) ∧
    (∀ r rs, (Paragraph.mk [⟨['a', 'X', 'b'],
        ⟨some true, some false, none, some "F", some 7, some (1, 2, 3)⟩, none⟩]).runs =
        r :: rs →
      (∃ q ∈ (Paragraph.mk [⟨['a', 'X', 'b'],
        ⟨some true, some false, none, some "F", some 7, some (1, 2, 3)⟩, none⟩]).runs,
        listContains ['X'] q.text = true) →
      (copyFmtML (transformParaML ['X'] ['A'] ⟨[⟨['a', 'X', 'b'],
        ⟨some true, some false, none, some "F", some 7, some (1, 2, 3)⟩,
        none⟩]⟩).runs).fontName = r.fmt.fontName ∧
      (copyFmtML (transformParaML ['X'] ['A'] ⟨[⟨['a', 'X', 'b'],
        ⟨some true, some false, none, some "F", some 7, some (1, 2, 3)⟩,
        none⟩]⟩).runs).fontSize = r.fmt.fontSize ∧
      (copyFmtML (transformParaML ['X'] ['A'] ⟨[⟨['a', 'X', 'b'],
        ⟨some true, some false, none, some "F", some 7, some (1, 2, 3)⟩,
        none⟩]⟩).runs).bold = r.fmt.bold ∧
      (copyFmtML (transformParaML ['X'] ['A'] ⟨[⟨['a', 'X', 'b'],
        ⟨some true, some false, none, some "F", some 7, some (1, 2, 3)⟩,
        none⟩]⟩).runs).italic = r.fmt.italic)) :=
  ⟨by decide, by decide, by decide, by decide, by decide, by decide, by decide,
    multiline_cell_replacement ['X'] ['A'] ['B'] ['C'] [] []
      ⟨[⟨['a', 'X', 'b'], ⟨some true, some false, none, some "F", some 7, some (1, 2, 3)⟩,
        none⟩]⟩
      (by decide) (by decide) (by decide) (by decide) (by decide) (by decide)
      (by decide)⟩

end BadgeGen
